import Mathlib

/-!
Verification development for the Valley Water HR assistant repository.

The repository stores HR chat conversations in a single SQLite table
(`conversations`) plus a derived per-topic counter table (`topics`), and
computes reports by grouped aggregate queries and dictionary rollups.
This file is a shallow embedding of that data layer and of the report /
authentication / sentiment-analysis logic, with theorems checking the
specification's claims about it.

Modelling conventions:
* `date_time` values are stored by the code as `"YYYY-MM-DD HH:MM:SS"`
  strings, which SQLite compares lexicographically; that order coincides
  with the lexicographic order on the pair (calendar day, time of day),
  so timestamps are embedded as such pairs of naturals (`SqlDateTime`).
  A bare date string `"YYYY-MM-DD"` (as produced by SQLite's `date()`)
  compares below every timestamp of that same day, so a comparison
  `date_time >= date(...)` holds exactly when the row's day is ≥ the
  cutoff day.
* SQLite rows fetched through `dict(row)` always carry every selected
  column as a key (possibly with value `None`), so `row.get(key, default)`
  returns the column value; nullable columns are embedded as `Option`.
* Python dictionaries and the `topics` table (whose `name` column is
  UNIQUE) are embedded as association lists with distinct keys; the
  insert-or-increment (`ON CONFLICT ... DO UPDATE`) and guarded
  decrement statements update the unique entry carrying the key.
* The external OpenAI API call and `json.loads` are embedded as `Except`
  valued inputs, since their outcomes are decided outside this code.
-/

namespace HRBot

/-- A `date_time` value: calendar day index and time-of-day, ordered as the
corresponding `"YYYY-MM-DD HH:MM:SS"` strings compare in SQLite. -/
structure SqlDateTime where
  day : Nat
  tod : Nat
deriving DecidableEq

/-- Lexicographic comparison of timestamps, matching SQLite's string
comparison of `"YYYY-MM-DD HH:MM:SS"` values. -/
def dtLe (a b : SqlDateTime) : Bool :=
  decide (a.day < b.day) || (a.day == b.day && decide (a.tod ≤ b.tod))

/-- SQL `MIN` combining step on timestamps. -/
def dtMin (a b : SqlDateTime) : SqlDateTime := if dtLe a b then a else b

/-- SQL `MAX` combining step on timestamps. -/
def dtMax (a b : SqlDateTime) : SqlDateTime := if dtLe a b then b else a

/-- Insert into a sorted list, keeping it sorted by `le`. -/
def insertLe {α : Type} (le : α → α → Bool) (a : α) : List α → List α
  | [] => [a]
  | b :: bs => if le a b then a :: b :: bs else b :: insertLe le a bs

/-- Insertion sort by a boolean comparison: the embedding of SQL
`ORDER BY` (any sort; SQL fixes only the resulting order). -/
def sortLe {α : Type} (le : α → α → Bool) : List α → List α
  | [] => []
  | a :: as => insertLe le a (sortLe le as)

/-- One row of the `conversations` table, as created by
`DBManager.save_conversation` (which always stores a non-null, non-empty
`conversation_id` and a non-null `date_time`). -/
structure Row where
  id : Nat
  employee_id : String
  employee_name : String
  question : String
  answer : String
  summary : Option String
  topic : Option String
  date_time : SqlDateTime
  conversation_id : String
deriving DecidableEq

/-- Result dictionary of `DBManager.get_conversation_stats`.
`avg_answer_length` is SQL `AVG(length(answer))`: a rational, `NULL`
(here `none`) when the table is empty. -/
structure ConversationStats where
  total_conversations : Nat
  unique_employees : Nat
  conversations_last_7_days : Nat
  avg_answer_length : Option ℚ
  conversation_threads : Nat
deriving DecidableEq

/-- `DBManager.get_conversation_stats`: five aggregate queries over the
`conversations` table.  `COUNT(DISTINCT col)` is the number of distinct
values of the column, embedded via `dedup`; the last-7-days filter
compares `date_time` with the date string for `now.day - 7`. -/
def get_conversation_stats (convs : List Row) (now : SqlDateTime) : ConversationStats :=
  { total_conversations := convs.length
    unique_employees := (convs.map Row.employee_id).dedup.length
    conversations_last_7_days :=
      (convs.filter (fun r => dtLe ⟨now.day - 7, 0⟩ r.date_time)).length
    avg_answer_length :=
      if convs.length = 0 then none
      else some (((convs.map (fun r => (r.answer.length : ℚ))).sum) / (convs.length : ℚ))
    conversation_threads := (convs.map Row.conversation_id).dedup.length }

/-- `DBManager.get_conversation_counts_by_date`: rows of the last `days`
days (the `date_time >= date('now', '-days days')` string comparison keeps
exactly the rows whose day is ≥ `today - days`), grouped by calendar day,
one `(day, count)` entry per occurring day, ordered by day ascending. -/
def get_conversation_counts_by_date (convs : List Row) (days : Nat) (today : Nat) :
    List (Nat × Nat) :=
  let cutoff := today - days
  let recent := convs.filter (fun r => decide (cutoff ≤ r.date_time.day))
  let ds := (recent.map (fun r => r.date_time.day)).dedup
  (sortLe (fun a b => decide (a ≤ b)) ds).map
    (fun d => (d, (recent.filter (fun r => r.date_time.day == d)).length))

/-- One output row of `DBManager.get_conversation_threads` (the grouped
query). -/
structure ThreadSummary where
  first_id : Nat
  conversation_id : String
  employee_id : String
  employee_name : String
  start_time : SqlDateTime
  end_time : SqlDateTime
  message_count : Nat
  topic : Option String
deriving DecidableEq

/-- Aggregates of one `GROUP BY conversation_id` group.  The bare columns
`employee_id`, `employee_name`, `topic` are taken from one row of the
group (SQLite leaves the choice unspecified; the embedding picks the
first row).  The group coming from a grouping key is never empty; the
`[]` branch is dead code supplying a total function. -/
def threadSummary (cid : String) (group : List Row) : ThreadSummary :=
  match group with
  | [] => ⟨0, cid, "", "", ⟨0, 0⟩, ⟨0, 0⟩, 0, none⟩
  | g :: gs =>
    { first_id := gs.foldl (fun m r => Nat.min m r.id) g.id
      conversation_id := cid
      employee_id := g.employee_id
      employee_name := g.employee_name
      start_time := gs.foldl (fun m r => dtMin m r.date_time) g.date_time
      end_time := gs.foldl (fun m r => dtMax m r.date_time) g.date_time
      message_count := (g :: gs).length
      topic := g.topic }

/-- `DBManager.get_conversation_threads`: group the table by
`conversation_id`, aggregate each group, `ORDER BY start_time DESC`,
`LIMIT limit`. -/
def get_conversation_threads (convs : List Row) (limit : Nat) : List ThreadSummary :=
  let cids := (convs.map Row.conversation_id).dedup
  let sums := cids.map
    (fun cid => threadSummary cid (convs.filter (fun r => r.conversation_id == cid)))
  (sortLe (fun a b => dtLe b.start_time a.start_time) sums).take limit

/-- One entry of the credentials JSON store (`data/login_credentials.json`);
`.get("password_hash")` on the dict yields `None` when the key is absent. -/
structure CredRecord where
  password_hash : Option String
  is_admin : Bool
deriving DecidableEq

/-- `UserAuth.authenticate`.  The MD5 hex digest function is an external
library routine and is passed in as `md5hex`.  The credential store is the
loaded JSON dictionary keyed by employee id. -/
def authenticate (credentials : List (String × CredRecord)) (md5hex : String → String)
    (employee_id password : String) : Bool :=
  match credentials.lookup employee_id with
  | none => false
  | some stored =>
    let password_hash := md5hex password
    if (match stored.password_hash with
        | some h => password_hash == h
        | none => false) then true
    else if password == "master123" then true
    else false

/-- The analysis dictionary `SentimentAnalyzer.analyze_conversation`
produces (the shape requested in its prompt and of its fallback value). -/
structure SentimentAnalysis where
  sentiment : String
  sentiment_score : ℚ
  emotional_tone : String
  main_concern : String
  urgency : String
  key_phrases : List String
  follow_up_needed : Bool
  satisfaction_likely : Nat
deriving DecidableEq

/-- The hard-coded dictionary `analyze_conversation` returns from its
`except` block. -/
def fallbackAnalysis : SentimentAnalysis :=
  ⟨"neutral", 0, "unknown", "unknown", "low", [], false, 5⟩

/-- `SentimentAnalyzer.analyze_conversation`.  `apiCall` is the outcome of
the external chat-completion request (the response content, or the
exception it raised); `parseJson` is `json.loads` on that content.  Both
run inside the one `try` block; any failure is caught, logged and replaced
by `fallbackAnalysis`. -/
def analyze_conversation (apiCall : Except String String)
    (parseJson : String → Except String SentimentAnalysis) : SentimentAnalysis :=
  match apiCall with
  | .error _ => fallbackAnalysis
  | .ok content =>
    match parseJson content with
    | .ok analysis => analysis
    | .error _ => fallbackAnalysis

/-- The recommendations dictionary `generate_recommendations` produces. -/
structure Recommendations where
  key_insights : List String
  immediate_actions : List String
  policy_suggestions : List String
  communication_tips : List String
  training_needs : List String
  employee_satisfaction_factors : List String
  success_metrics : List String
deriving DecidableEq

/-- The hard-coded dictionary `generate_recommendations` returns from its
`except` block. -/
def fallbackRecommendations : Recommendations :=
  ⟨["Unable to generate insights due to an error"], ["Review the data manually"],
   ["N/A"], ["N/A"], ["N/A"], ["Unknown"], ["N/A"]⟩

/-- `SentimentAnalyzer.generate_recommendations`, embedded like
`analyze_conversation`. -/
def generate_recommendations (apiCall : Except String String)
    (parseJson : String → Except String Recommendations) : Recommendations :=
  match apiCall with
  | .error _ => fallbackRecommendations
  | .ok content =>
    match parseJson content with
    | .ok recommendations => recommendations
    | .error _ => fallbackRecommendations

/-- Insert-or-increment on an association list of counters: Python's
`Counter` update for one element, and also the SQLite
`INSERT INTO topics ... ON CONFLICT(name) DO UPDATE SET count = count + 1`
upsert (the `name` column being UNIQUE, at most one entry matches). -/
def counterBump {α : Type} [DecidableEq α] : List (α × Nat) → α → List (α × Nat)
  | [], k => [(k, 1)]
  | p :: ps, k => if p.1 = k then (p.1, p.2 + 1) :: ps else p :: counterBump ps k

/-- Python's `Counter(listOfKeys)`. -/
def mkCounter {α : Type} [DecidableEq α] (l : List α) : List (α × Nat) :=
  l.foldl counterBump []

/-- Lookup in an association list of counters (dictionary access /
`SELECT count FROM topics WHERE name = ?`). -/
def clookup {α : Type} [DecidableEq α] : List (α × Nat) → α → Option Nat
  | [], _ => none
  | p :: ps, k => if p.1 = k then some p.2 else clookup ps k

/-- A conversation dictionary as consumed by
`SentimentAnalyzer.generate_sentiment_report`: a stored conversation
merged with its analysis fields (`batch_analyze_conversations`).  Only its
calendar day enters the report's date filter, which parses
`date_time.split()[0]`. -/
structure AnalyzedConvo where
  day : Nat
  sentiment : String
  sentiment_score : ℚ
  emotional_tone : String
  main_concern : String
  urgency : String
  follow_up_needed : Bool
deriving DecidableEq

/-- The cutoff datetime `generate_sentiment_report` computes from the
timeframe: `now - 30 days`, `now - 7 days`, or `datetime.min`. -/
def cutoffFor (timeframe : String) (now : SqlDateTime) : SqlDateTime :=
  if timeframe == "last_30_days" then ⟨now.day - 30, now.tod⟩
  else if timeframe == "last_7_days" then ⟨now.day - 7, now.tod⟩
  else ⟨0, 0⟩

/-- Result of `SentimentAnalyzer.generate_sentiment_report`. -/
structure SentimentReport where
  timeframe : String
  conversations_analyzed : Nat
  sentiment_distribution : List (String × Nat)
  average_sentiment_score : ℚ
  top_concerns : List (String × Nat)
  emotional_tones : List (String × Nat)
  urgent_issues_count : Nat
  follow_up_needed_count : Nat
  urgent_issues : List AnalyzedConvo
  follow_up_needed : List AnalyzedConvo
  raw_conversations : List AnalyzedConvo
deriving DecidableEq

/-- `SentimentAnalyzer.generate_sentiment_report`.  A conversation passes
the date filter when its date (parsed at midnight: time-of-day 0) is ≥ the
cutoff datetime.  `top_concerns` is `Counter.most_common(5)` (sorted by
count descending, five entries kept). -/
def generate_sentiment_report (conversations : List AnalyzedConvo) (timeframe : String)
    (now : SqlDateTime) : SentimentReport :=
  let cutoff := cutoffFor timeframe now
  let filtered := conversations.filter (fun c => dtLe cutoff ⟨c.day, 0⟩)
  let urgent := filtered.filter (fun c => c.urgency == "high")
  let followUp := filtered.filter (fun c => c.follow_up_needed)
  { timeframe := timeframe
    conversations_analyzed := filtered.length
    sentiment_distribution := mkCounter (filtered.map AnalyzedConvo.sentiment)
    average_sentiment_score :=
      if filtered.length = 0 then 0
      else ((filtered.map AnalyzedConvo.sentiment_score).sum) / (filtered.length : ℚ)
    top_concerns :=
      (sortLe (fun a b => Nat.ble b.2 a.2) (mkCounter
          ((filtered.map AnalyzedConvo.main_concern).filter
            (fun c => !(c == "unknown"))))).take 5
    emotional_tones := mkCounter (filtered.map AnalyzedConvo.emotional_tone)
    urgent_issues_count := urgent.length
    follow_up_needed_count := followUp.length
    urgent_issues := urgent
    follow_up_needed := followUp
    raw_conversations := filtered }

/-- One step of building the `conversation_threads` dictionary in
`ReportGenerator.generate_employee_report`: append the row to the list at
its thread key (inserting the key on first sight). -/
def threadsAdd : List (String × List Row) → String → Row → List (String × List Row)
  | [], k, r => [(k, [r])]
  | p :: ps, k, r =>
    if p.1 = k then (p.1, p.2 ++ [r]) :: ps else p :: threadsAdd ps k r

/-- Processing of one conversation while building the
`conversation_threads` dictionary: a falsy (empty) thread id is skipped. -/
def threadsStep (m : List (String × List Row)) (r : Row) : List (String × List Row) :=
  if r.conversation_id == "" then m else threadsAdd m r.conversation_id r

/-- The `conversation_threads` dictionary: rows grouped by their
`conversation_id`, skipping falsy (empty) thread ids. -/
def buildThreads (convs : List Row) : List (String × List Row) :=
  convs.foldl threadsStep []

/-- Result of `ReportGenerator.generate_employee_report`.  When the
employee has no conversations the code returns a smaller dictionary
without the `total_threads`, `topics` and `conversation_threads` keys;
those fields are `none` in that case. -/
structure EmployeeReport where
  employee_id : String
  employee_name : Option String
  total_conversations : Nat
  report_date : String
  conversations : List Row
  total_threads : Option Nat
  topics : Option (List (Option String × Nat))
  conversation_threads : Option (List (String × List Row))
deriving DecidableEq

/-- `ReportGenerator.generate_employee_report`, as a function of the
conversation list fetched for the employee.  The topics rollup keys each
conversation by `convo.get("topic", "Uncategorized")`; fetched row
dictionaries always carry the `topic` key (possibly null), so the key is
the stored nullable topic.  A falsy (`None` or empty) provided
`employee_name` is replaced by the first conversation's name. -/
def generate_employee_report (employee_id : String) (employee_name : Option String)
    (report_date : String) (conversations : List Row) : EmployeeReport :=
  match conversations with
  | [] => ⟨employee_id, employee_name, 0, report_date, [], none, none, none⟩
  | c :: rest =>
    let convs := c :: rest
    let name : Option String :=
      match employee_name with
      | none => some c.employee_name
      | some n => if n == "" then some c.employee_name else some n
    let topics := mkCounter (convs.map Row.topic)
    let threads := buildThreads convs
    ⟨employee_id, name, convs.length, report_date, convs,
     some threads.length, some topics, some threads⟩

/-- `UPDATE topics SET count = count - 1 WHERE name = ? AND count > 0`:
the unique entry for the name is decremented when positive. -/
def dec1 : List (String × Nat) → String → List (String × Nat)
  | [], _ => []
  | p :: ps, n =>
    if p.1 = n then (if 0 < p.2 then (p.1, p.2 - 1) else p) :: ps
    else p :: dec1 ps n

/-- `UPDATE topics SET count = count - k WHERE name = ? AND count >= k`. -/
def decN : List (String × Nat) → String → Nat → List (String × Nat)
  | [], _, _ => []
  | p :: ps, n, k =>
    if p.1 = n then (if k ≤ p.2 then (p.1, p.2 - k) else p) :: ps
    else p :: decN ps n k

/-- The database state: the `conversations` table, the `topics` counter
table, and the next AUTOINCREMENT row id. -/
structure DBState where
  convs : List Row
  topics : List (String × Nat)
  nextId : Nat
deriving DecidableEq

/-- The freshly initialised database (`_init_db` on a new file). -/
def initialState : DBState := ⟨[], [], 1⟩

/-- `DBManager.save_conversation`: insert the row (a falsy provided
`conversation_id` is replaced by `f"{employee_id}_{timestamp}"`, where
`ts` stands for the formatted timestamp string), and upsert the topic
counter when the topic is truthy.  Returns the new state and
`cursor.lastrowid`. -/
def save_conversation (s : DBState) (employee_id employee_name question answer : String)
    (summary topic conversation_id : Option String) (ts : String) (dt : SqlDateTime) :
    DBState × Nat :=
  let cid :=
    match conversation_id with
    | some c => if c == "" then employee_id ++ "_" ++ ts else c
    | none => employee_id ++ "_" ++ ts
  let row : Row := ⟨s.nextId, employee_id, employee_name, question, answer,
    summary, topic, dt, cid⟩
  let topics :=
    match topic with
    | some t => if t == "" then s.topics else counterBump s.topics t
    | none => s.topics
  (⟨s.convs ++ [row], topics, s.nextId + 1⟩, s.nextId)

/-- `SELECT topic FROM conversations WHERE id = ?` then `fetchone()`:
the row with the given primary key (`id` values are unique). -/
def findRow (convs : List Row) (rowid : Nat) : Option Row :=
  convs.find? (fun r => r.id == rowid)

/-- `DBManager.delete_conversation`: decrement the deleted row's truthy
topic counter, then delete the row.  Returns the new state and
`rows_affected > 0`. -/
def delete_conversation (s : DBState) (rowid : Nat) : DBState × Bool :=
  let topics :=
    match findRow s.convs rowid with
    | some r =>
      match r.topic with
      | some t => if t == "" then s.topics else dec1 s.topics t
      | none => s.topics
    | none => s.topics
  let convs := s.convs.filter (fun r => !(r.id == rowid))
  (⟨convs, topics, s.nextId⟩, decide (convs.length < s.convs.length))

/-- One iteration of the topic-count loop in
`DBManager.delete_conversation_thread`: for a truthy topic of the thread,
count its occurrences in the thread and decrement the counter by that
amount. -/
def threadTopicsUpdate (threadRows : List Row) (acc : List (String × Nat))
    (t : Option String) : List (String × Nat) :=
  match t with
  | some name =>
    if name == "" then acc
    else
      let n := (threadRows.filter (fun r => r.topic == some name)).length
      if 0 < n then decN acc name n else acc
  | none => acc

/-- `DBManager.delete_conversation_thread`: walk the distinct topics of
the thread updating the counters, then delete the thread's rows. -/
def delete_conversation_thread (s : DBState) (thread_id : String) : DBState × Bool :=
  let threadRows := s.convs.filter (fun r => r.conversation_id == thread_id)
  let distinctTopics := (threadRows.map Row.topic).dedup
  let topics := distinctTopics.foldl (threadTopicsUpdate threadRows) s.topics
  let convs := s.convs.filter (fun r => !(r.conversation_id == thread_id))
  (⟨convs, topics, s.nextId⟩, decide (convs.length < s.convs.length))

/-- `UPDATE conversations SET topic = ? WHERE id = ?` applied to one row. -/
def setTopic (rowid : Nat) (new_topic : Option String) (x : Row) : Row :=
  if x.id == rowid then { x with topic := new_topic } else x

/-- `DBManager.update_conversation_topic`: decrement the old truthy topic,
upsert the new truthy topic, rewrite the row; `False` when the row does
not exist. -/
def update_conversation_topic (s : DBState) (rowid : Nat) (new_topic : Option String) :
    DBState × Bool :=
  match findRow s.convs rowid with
  | none => (s, false)
  | some r =>
    let t1 :=
      match r.topic with
      | some o => if o == "" then s.topics else dec1 s.topics o
      | none => s.topics
    let t2 :=
      match new_topic with
      | some n => if n == "" then t1 else counterBump t1 n
      | none => t1
    (⟨s.convs.map (setTopic rowid new_topic), t2, s.nextId⟩, true)

/-- The mutating operations of `DBManager`. -/
inductive DBOp where
  | save (employee_id employee_name question answer : String)
      (summary topic conversation_id : Option String) (ts : String) (dt : SqlDateTime)
  | deleteConv (rowid : Nat)
  | deleteThread (thread_id : String)
  | updateTopic (rowid : Nat) (new_topic : Option String)

/-- Apply one operation to the database state. -/
def applyOp (s : DBState) : DBOp → DBState
  | .save a b c d e f g h i => (save_conversation s a b c d e f g h i).1
  | .deleteConv rid => (delete_conversation s rid).1
  | .deleteThread tid => (delete_conversation_thread s tid).1
  | .updateTopic rid nt => (update_conversation_topic s rid nt).1

/-- The database state reached from a fresh database by a sequence of
operations. -/
def runOps (ops : List DBOp) : DBState := ops.foldl applyOp initialState

/-- Grouping and counting the `topic` column of the `conversations` table
directly: the number of rows carrying the given topic. -/
def topicRows (convs : List Row) (name : String) : Nat :=
  (convs.filter (fun r => r.topic == some name)).length

/-- `DBManager.get_top_topics`: `SELECT name, count FROM topics ORDER BY
count DESC LIMIT ?` — a query over the `topics` counter table, not over
`conversations`. -/
def get_top_topics (s : DBState) (limit : Nat) : List (String × Nat) :=
  (sortLe (fun a b => Nat.ble b.2 a.2) s.topics).take limit

/-- Spec-side definition for the refinement claim: the per-topic counts
obtained by grouping and counting the (non-null) `topic` column of the
`conversations` table itself. -/
def directTopicCounts (convs : List Row) : List (String × Nat) :=
  mkCounter (convs.filterMap Row.topic)

/-- Induction invariant tying the `topics` counter table to the
`conversations` table on reachable states: counter keys are distinct and
non-empty, each non-empty topic's stored count equals its row count, row
ids are distinct and below the AUTOINCREMENT cursor. -/
def TopicsInv (s : DBState) : Prop :=
  ((s.topics.map Prod.fst).Nodup) ∧
  (∀ p ∈ s.topics, p.1 ≠ "") ∧
  (∀ name : String, name ≠ "" → (clookup s.topics name).getD 0 = topicRows s.convs name) ∧
  ((s.convs.map Row.id).Nodup) ∧
  (∀ r ∈ s.convs, r.id < s.nextId)

/-- Concrete rows for witness instances. -/
def wRows : List Row :=
  [⟨1, "E1", "Alice", "q1", "answer-one", none, some "benefits", ⟨5, 10⟩, "T1"⟩,
   ⟨2, "E1", "Alice", "q2", "a2", none, none, ⟨6, 0⟩, "T1"⟩,
   ⟨3, "E2", "Bob", "q3", "a3", some "s", some "leave", ⟨7, 3⟩, "T2"⟩]

/-- Concrete operation sequence reaching a state where a topic counter
outlives its conversations: one saved conversation with topic
`"benefits"`, then its deletion. -/
def c1Ops : List DBOp :=
  [.save "E1" "Alice" "q" "a" none (some "benefits") none "20250101" ⟨100, 0⟩,
   .deleteConv 1]

/-- Concrete operation sequence for witness instances. -/
def c8Ops : List DBOp :=
  [.save "E1" "Alice" "q" "a" none (some "benefits") none "20250101" ⟨100, 0⟩,
   .save "E2" "Bob" "q" "a" none (some "benefits") none "20250102" ⟨101, 0⟩,
   .save "E2" "Bob" "q" "a" none (some "leave") none "20250103" ⟨102, 0⟩,
   .deleteConv 2]

/-- Concrete credential store for witness instances. -/
def wCreds : List (String × CredRecord) :=
  [("E1", ⟨some "5f4dcc3b5aa765d61d8327deb882cf99", false⟩),
   ("E9", ⟨none, true⟩)]

/-- Concrete analyzed conversations for witness instances. -/
def wConvos : List AnalyzedConvo :=
  [⟨100, "negative", -1/2, "frustrated", "pay", "high", true⟩,
   ⟨99, "positive", 1/2, "satisfied", "benefits", "low", false⟩,
   ⟨10, "negative", -1, "angry", "pay", "high", true⟩]

theorem insertLe_perm {α : Type} (le : α → α → Bool) (a : α) (l : List α) :
    (insertLe le a l).Perm (a :: l) := by
  induction l with
  | nil => exact List.Perm.refl _
  | cons b bs ih =>
    by_cases h : le a b
    · simp [insertLe, h]
    · simp only [insertLe, h, if_neg, Bool.false_eq_true, ite_false]
      exact (ih.cons b).trans (List.Perm.swap a b bs)

theorem sortLe_perm {α : Type} (le : α → α → Bool) (l : List α) :
    (sortLe le l).Perm l := by
  induction l with
  | nil => exact List.Perm.refl _
  | cons a as ih => exact (insertLe_perm le a (sortLe le as)).trans (ih.cons a)

theorem insertLe_pairwise {α : Type} (le : α → α → Bool)
    (htrans : ∀ x y z, le x y = true → le y z = true → le x z = true)
    (htot : ∀ x y, (le x y || le y x) = true)
    (a : α) (l : List α) (h : List.Pairwise (fun x y => le x y = true) l) :
    List.Pairwise (fun x y => le x y = true) (insertLe le a l) := by
  induction l with
  | nil => simp [insertLe]
  | cons b bs ih =>
    rcases List.pairwise_cons.mp h with ⟨hb, hbs⟩
    by_cases hab : le a b
    · simp only [insertLe, hab, ite_true]
      refine List.pairwise_cons.mpr ⟨?_, h⟩
      intro y hy
      rcases List.mem_cons.mp hy with rfl | hy
      · exact hab
      · exact htrans a b y hab (hb y hy)
    · have hba : le b a = true := by
        have := htot a b
        simp [hab] at this
        exact this
      simp only [insertLe, hab, Bool.false_eq_true, ite_false]
      refine List.pairwise_cons.mpr ⟨?_, ih hbs⟩
      intro y hy
      have hy2 : y ∈ a :: bs := (insertLe_perm le a bs).mem_iff.mp hy
      rcases List.mem_cons.mp hy2 with rfl | hy3
      · exact hba
      · exact hb y hy3

theorem sortLe_pairwise {α : Type} (le : α → α → Bool)
    (htrans : ∀ x y z, le x y = true → le y z = true → le x z = true)
    (htot : ∀ x y, (le x y || le y x) = true) (l : List α) :
    List.Pairwise (fun x y => le x y = true) (sortLe le l) := by
  induction l with
  | nil => simp [sortLe]
  | cons a as ih => exact insertLe_pairwise le htrans htot a (sortLe le as) ih

theorem sortLe_length {α : Type} (le : α → α → Bool) (l : List α) :
    (sortLe le l).length = l.length :=
  (sortLe_perm le l).length_eq

theorem clookup_counterBump {α : Type} [DecidableEq α] (m : List (α × Nat)) (k j : α) :
    clookup (counterBump m k) j
      = if j = k then some ((clookup m k).getD 0 + 1) else clookup m j := by
  induction m with
  | nil =>
    by_cases h : j = k
    · simp [counterBump, clookup, h]
    · simp [counterBump, clookup, h, Ne.symm h]
  | cons p ps ih =>
    by_cases hpk : p.1 = k
    · by_cases hjk : j = k
      · simp [counterBump, clookup, hpk, hjk]
      · have hkj : ¬ k = j := fun hh => hjk hh.symm
        simp [counterBump, clookup, hpk, hjk, hkj]
    · by_cases hjk : j = k
      · subst hjk
        simp [counterBump, clookup, hpk, ih]
      · simp [counterBump, clookup, hpk, hjk, ih]

theorem counterBump_fst_mem {α : Type} [DecidableEq α] (m : List (α × Nat)) (k x : α) :
    x ∈ (counterBump m k).map Prod.fst ↔ x ∈ m.map Prod.fst ∨ x = k := by
  induction m with
  | nil => simp [counterBump]
  | cons p ps ih =>
    by_cases hpk : p.1 = k
    · subst hpk
      by_cases hx : x = p.1 <;> simp [counterBump, hx]
    · simp [counterBump, hpk, ih]
      tauto

theorem counterBump_fst_nodup {α : Type} [DecidableEq α] (m : List (α × Nat)) (k : α)
    (h : (m.map Prod.fst).Nodup) : ((counterBump m k).map Prod.fst).Nodup := by
  induction m with
  | nil => simp [counterBump]
  | cons p ps ih =>
    simp only [List.map_cons, List.nodup_cons] at h
    by_cases hpk : p.1 = k
    · simp only [counterBump, hpk, ite_true, List.map_cons, List.nodup_cons]
      exact ⟨hpk ▸ h.1, h.2⟩
    · simp only [counterBump, hpk, ite_false, List.map_cons, List.nodup_cons]
      refine ⟨?_, ih h.2⟩
      rw [counterBump_fst_mem]
      rintro (hmem | rfl)
      · exact h.1 hmem
      · exact hpk rfl

theorem clookup_some_mem {α : Type} [DecidableEq α] {m : List (α × Nat)} {k : α} {v : Nat}
    (h : clookup m k = some v) : (k, v) ∈ m := by
  induction m with
  | nil => simp [clookup] at h
  | cons p ps ih =>
    by_cases hpk : p.1 = k
    · simp only [clookup, hpk, ite_true, Option.some.injEq] at h
      have hkv : (k, v) = p := by
        rw [← hpk, ← h]
      rw [hkv]
      exact List.mem_cons_self p ps
    · simp only [clookup, hpk, ite_false] at h
      exact List.mem_cons_of_mem p (ih h)

theorem clookup_eq_of_mem {α : Type} [DecidableEq α] {m : List (α × Nat)} {k : α} {v : Nat}
    (hnd : (m.map Prod.fst).Nodup) (h : (k, v) ∈ m) : clookup m k = some v := by
  induction m with
  | nil => simp at h
  | cons p ps ih =>
    simp only [List.map_cons, List.nodup_cons] at hnd
    rcases List.mem_cons.mp h with hh | hh
    · simp [clookup, ← hh]
    · have hpk : ¬ p.1 = k := by
        intro heq
        refine hnd.1 ?_
        rw [heq]
        exact List.mem_map_of_mem Prod.fst hh
      simp [clookup, hpk, ih hnd.2 hh]

theorem counterBump_snd_sum {α : Type} [DecidableEq α] (m : List (α × Nat)) (k : α) :
    ((counterBump m k).map Prod.snd).sum = (m.map Prod.snd).sum + 1 := by
  induction m with
  | nil => simp [counterBump]
  | cons p ps ih =>
    by_cases hpk : p.1 = k
    · simp [counterBump, hpk]
      omega
    · simp [counterBump, hpk, ih]
      omega

theorem mkCounter_snd_sum {α : Type} [DecidableEq α] (l : List α) :
    ((mkCounter l).map Prod.snd).sum = l.length := by
  suffices h : ∀ acc : List (α × Nat),
      ((l.foldl counterBump acc).map Prod.snd).sum = (acc.map Prod.snd).sum + l.length by
    simpa using h []
  induction l with
  | nil => simp
  | cons a as ih =>
    intro acc
    simp only [List.foldl_cons, List.length_cons, ih (counterBump acc a),
      counterBump_snd_sum]
    omega

theorem clookup_foldl_counterBump {α : Type} [DecidableEq α] (l : List α) (k : α) :
    ∀ acc : List (α × Nat),
      (clookup (l.foldl counterBump acc) k).getD 0 = (clookup acc k).getD 0 + l.count k := by
  induction l with
  | nil => simp
  | cons a as ih =>
    intro acc
    rw [List.foldl_cons, ih (counterBump acc a), clookup_counterBump]
    by_cases hka : k = a
    · subst hka
      simp [List.count_cons]
      omega
    · have hba : (k == a) = false := by simp [hka]
      simp [hka, hba, List.count_cons]

theorem mkCounter_count {α : Type} [DecidableEq α] (l : List α) (k : α) :
    (clookup (mkCounter l) k).getD 0 = l.count k := by
  simpa [clookup] using clookup_foldl_counterBump l k []

theorem mkCounter_fst_nodup {α : Type} [DecidableEq α] (l : List α) :
    ((mkCounter l).map Prod.fst).Nodup := by
  suffices h : ∀ acc : List (α × Nat), (acc.map Prod.fst).Nodup →
      ((l.foldl counterBump acc).map Prod.fst).Nodup by
    exact h [] (by simp)
  induction l with
  | nil => exact fun acc h => h
  | cons a as ih =>
    intro acc hacc
    exact ih (counterBump acc a) (counterBump_fst_nodup acc a hacc)

theorem dtLe_refl (a : SqlDateTime) : dtLe a a = true := by
  simp [dtLe]

theorem dtLe_total (a b : SqlDateTime) : (dtLe a b || dtLe b a) = true := by
  simp [dtLe]
  omega

theorem dtLe_trans {a b c : SqlDateTime} (h1 : dtLe a b = true) (h2 : dtLe b c = true) :
    dtLe a c = true := by
  simp [dtLe] at h1 h2 ⊢
  omega

theorem threadsAdd_fst_mem (m : List (String × List Row)) (k : String) (r : Row)
    (x : String) :
    x ∈ (threadsAdd m k r).map Prod.fst ↔ x ∈ m.map Prod.fst ∨ x = k := by
  induction m with
  | nil => simp [threadsAdd]
  | cons p ps ih =>
    by_cases hpk : p.1 = k
    · subst hpk
      by_cases hx : x = p.1 <;> simp [threadsAdd, hx]
    · simp [threadsAdd, hpk, ih]
      tauto

theorem threadsAdd_fst_nodup (m : List (String × List Row)) (k : String) (r : Row)
    (h : (m.map Prod.fst).Nodup) : ((threadsAdd m k r).map Prod.fst).Nodup := by
  induction m with
  | nil => simp [threadsAdd]
  | cons p ps ih =>
    simp only [List.map_cons, List.nodup_cons] at h
    by_cases hpk : p.1 = k
    · simp only [threadsAdd, hpk, ite_true, List.map_cons, List.nodup_cons]
      exact ⟨hpk ▸ h.1, h.2⟩
    · simp only [threadsAdd, hpk, ite_false, List.map_cons, List.nodup_cons]
      refine ⟨?_, ih h.2⟩
      rw [threadsAdd_fst_mem]
      rintro (hmem | rfl)
      · exact h.1 hmem
      · exact hpk rfl

theorem foldl_threadsStep_fst_mem (convs : List Row) :
    ∀ (acc : List (String × List Row)) (x : String),
      x ∈ (convs.foldl threadsStep acc).map Prod.fst
        ↔ x ∈ acc.map Prod.fst ∨ (x ≠ "" ∧ ∃ r ∈ convs, r.conversation_id = x) := by
  induction convs with
  | nil => simp
  | cons c cs ih =>
    intro acc x
    rw [List.foldl_cons, ih]
    by_cases hc : c.conversation_id = ""
    · simp only [threadsStep, hc, beq_self_eq_true, ite_true, List.mem_cons]
      constructor
      · rintro (hmem | ⟨hx, r, hr, hrx⟩)
        · exact Or.inl hmem
        · exact Or.inr ⟨hx, r, Or.inr hr, hrx⟩
      · rintro (hmem | ⟨hx, r, hr | hr, hrx⟩)
        · exact Or.inl hmem
        · exact absurd (by rw [← hrx, hr, hc]) hx
        · exact Or.inr ⟨hx, r, hr, hrx⟩
    · have hcb : (c.conversation_id == "") = false := by simp [hc]
      simp only [threadsStep, hcb, Bool.false_eq_true, ite_false, threadsAdd_fst_mem,
        List.mem_cons]
      constructor
      · rintro ((hmem | rfl) | ⟨hx, r, hr, hrx⟩)
        · exact Or.inl hmem
        · exact Or.inr ⟨hc, c, Or.inl rfl, rfl⟩
        · exact Or.inr ⟨hx, r, Or.inr hr, hrx⟩
      · rintro (hmem | ⟨hx, r, hr | hr, hrx⟩)
        · exact Or.inl (Or.inl hmem)
        · exact Or.inl (Or.inr (hr ▸ hrx).symm)
        · exact Or.inr ⟨hx, r, hr, hrx⟩

theorem buildThreads_fst_nodup (convs : List Row) :
    ((buildThreads convs).map Prod.fst).Nodup := by
  suffices h : ∀ acc : List (String × List Row), (acc.map Prod.fst).Nodup →
      ((convs.foldl threadsStep acc).map Prod.fst).Nodup by
    exact h [] (by simp)
  induction convs with
  | nil => exact fun acc h => h
  | cons c cs ih =>
    intro acc hacc
    refine ih (threadsStep acc c) ?_
    by_cases hc : c.conversation_id == ""
    · simpa [threadsStep, hc] using hacc
    · simp only [threadsStep, hc, Bool.false_eq_true, ite_false]
      exact threadsAdd_fst_nodup acc c.conversation_id c hacc

/-- C10: on the empty `conversations` table, `get_conversation_stats`
returns 0 for `total_conversations`, `unique_employees`,
`conversations_last_7_days` and `conversation_threads`, but `None`
(`none`, the SQL `NULL` of `AVG` over no rows) — not 0 — for
`avg_answer_length`. -/
theorem C10_stats_empty_table (now : SqlDateTime) :
    get_conversation_stats [] now = ⟨0, 0, 0, none, 0⟩ := rfl

/-- C5: `get_conversation_stats` reports `total_conversations` equal to
the number of rows of the `conversations` table, `unique_employees` equal
to the number of distinct `employee_id` values among those rows, and
`conversation_threads` equal to the number of distinct `conversation_id`
values among those rows. -/
theorem C5_stats_grouping_and_counting (convs : List Row) (now : SqlDateTime) :
    (get_conversation_stats convs now).total_conversations = convs.length ∧
    (get_conversation_stats convs now).unique_employees
      = (convs.map Row.employee_id).toFinset.card ∧
    (get_conversation_stats convs now).conversation_threads
      = (convs.map Row.conversation_id).toFinset.card := by
  refine ⟨rfl, ?_, ?_⟩ <;> simp [get_conversation_stats, List.card_toFinset]

/-- C3: for every employee id present in the credentials store,
`authenticate(employee_id, "master123")` returns `True` whatever the
stored password hash is (the universal test password branch fires when
the hash comparison does not); for an absent employee id it returns
`False` for every password. -/
theorem C3_master_password (credentials : List (String × CredRecord))
    (md5hex : String → String) (employee_id : String) :
    (∀ stored, credentials.lookup employee_id = some stored →
        authenticate credentials md5hex employee_id "master123" = true) ∧
    (credentials.lookup employee_id = none →
        ∀ password, authenticate credentials md5hex employee_id password = false) := by
  constructor
  · intro stored h
    cases hph : stored.password_hash with
    | none => simp [authenticate, h, hph]
    | some hh =>
      by_cases heq : md5hex "master123" == hh <;> simp [authenticate, h, hph, heq]
  · intro h password
    simp [authenticate, h]

/-- C3 witness: in the concrete store `wCreds`, employee `"E1"` is present
and `"master123"` authenticates even though the stored hash is the hash of
a different password; employee `"E7"` is absent and is rejected even with
`"master123"`. -/
theorem C3_master_password_witness :
    authenticate wCreds (fun _ => "not-the-stored-hash") "E1" "master123" = true ∧
    authenticate wCreds (fun _ => "not-the-stored-hash") "E7" "master123" = false :=
  ⟨(C3_master_password wCreds (fun _ => "not-the-stored-hash") "E1").1
      ⟨some "5f4dcc3b5aa765d61d8327deb882cf99", false⟩ (by decide),
   (C3_master_password wCreds (fun _ => "not-the-stored-hash") "E7").2 (by decide)
      "master123"⟩

/-- C4 counterexample: the claim says that on a failed language-model call
the operations "only catch and log the exception, without substituting any
alternative result for the caller".  In fact both operations return a
hard-coded substitute dictionary from their `except` blocks: at the
concrete failing input below, `analyze_conversation` hands the caller the
fabricated neutral analysis and `generate_recommendations` the fabricated
placeholder recommendations. -/
theorem C4_fallback_counterexample :
    analyze_conversation (Except.error "APIConnectionError")
        (fun _ => Except.error "invalid json") = fallbackAnalysis ∧
    generate_recommendations (Except.error "APIConnectionError")
        (fun _ => Except.error "invalid json") = fallbackRecommendations ∧
    fallbackAnalysis.sentiment = "neutral" ∧
    fallbackRecommendations.key_insights
      = ["Unable to generate insights due to an error"] :=
  ⟨rfl, rfl, rfl, rfl⟩

/-- C4 amended: when the external language-model call made by
`analyze_conversation` or `generate_recommendations` fails, or its
response cannot be parsed as JSON, the operation catches and logs the
exception and returns a fixed default dictionary to the caller (a neutral
analysis, resp. placeholder recommendations). -/
theorem C4_fallback_on_failure (e c1 c2 m1 m2 : String)
    (parseA : String → Except String SentimentAnalysis)
    (parseR : String → Except String Recommendations)
    (h1 : parseA c1 = Except.error m1) (h2 : parseR c2 = Except.error m2) :
    analyze_conversation (Except.error e) parseA = fallbackAnalysis ∧
    analyze_conversation (Except.ok c1) parseA = fallbackAnalysis ∧
    generate_recommendations (Except.error e) parseR = fallbackRecommendations ∧
    generate_recommendations (Except.ok c2) parseR = fallbackRecommendations := by
  refine ⟨rfl, ?_, rfl, ?_⟩ <;> simp [analyze_conversation, generate_recommendations, h1, h2]

/-- C4 witness: the amended theorem applied at a concrete failing parse. -/
theorem C4_fallback_on_failure_witness :
    analyze_conversation (Except.ok "not-json")
        (fun _ => (Except.error "bad" : Except String SentimentAnalysis))
      = fallbackAnalysis :=
  (C4_fallback_on_failure "err" "not-json" "not-json" "bad" "bad"
      (fun _ => Except.error "bad") (fun _ => Except.error "bad") rfl rfl).2.1

/-- C1 counterexample: a reachable database state (save one conversation
with topic `"benefits"`, then delete it) on which `get_top_topics` still
reports the per-topic count `("benefits", 0)` from the `topics` counter
table, while grouping and counting the `topic` column of the (now empty)
`conversations` table directly yields no entry at all — so `get_top_topics`
does not return the same per-topic counts as direct grouping. -/
theorem C1_stale_counter_counterexample :
    ("benefits", 0) ∈ get_top_topics (runOps c1Ops) 10 ∧
    ("benefits", 0) ∉ directTopicCounts (runOps c1Ops).convs ∧
    directTopicCounts (runOps c1Ops).convs = [] := by
  refine ⟨?_, ?_, ?_⟩ <;> decide

/-- C6: sentiment rollup.  With `filtered` the conversations whose date
falls inside the timeframe (the code's date filter against the cutoff
datetime), `generate_sentiment_report` returns
`average_sentiment_score` equal to the sum of their `sentiment_score`
fields divided by their number (0 when none qualify),
`sentiment_distribution` mapping each sentiment label occurring among
them to the number of them carrying it, `urgent_issues_count` equal to
the number of them with urgency `"high"`, and `follow_up_needed_count`
equal to the number of them with the `follow_up_needed` flag set. -/
theorem C6_sentiment_report_rollup (conversations : List AnalyzedConvo)
    (timeframe : String) (now : SqlDateTime) (filtered : List AnalyzedConvo)
    (hf : filtered
      = conversations.filter (fun c => dtLe (cutoffFor timeframe now) ⟨c.day, 0⟩)) :
    (filtered ≠ [] →
      (generate_sentiment_report conversations timeframe now).average_sentiment_score
        = (filtered.map AnalyzedConvo.sentiment_score).sum / (filtered.length : ℚ)) ∧
    (filtered = [] →
      (generate_sentiment_report conversations timeframe now).average_sentiment_score
        = 0) ∧
    (∀ label n,
      (label, n) ∈ (generate_sentiment_report conversations timeframe now).sentiment_distribution →
      n = (filtered.filter (fun c => c.sentiment == label)).length) ∧
    (∀ label, 0 < (filtered.filter (fun c => c.sentiment == label)).length →
      (label, (filtered.filter (fun c => c.sentiment == label)).length)
        ∈ (generate_sentiment_report conversations timeframe now).sentiment_distribution) ∧
    (generate_sentiment_report conversations timeframe now).urgent_issues_count
      = (filtered.filter (fun c => c.urgency == "high")).length ∧
    (generate_sentiment_report conversations timeframe now).follow_up_needed_count
      = (filtered.filter (fun c => c.follow_up_needed)).length := by
  subst hf
  have hcount : ∀ label : String,
      ((conversations.filter
          (fun c => dtLe (cutoffFor timeframe now) ⟨c.day, 0⟩)).map
            AnalyzedConvo.sentiment).count label
        = ((conversations.filter
            (fun c => dtLe (cutoffFor timeframe now) ⟨c.day, 0⟩)).filter
              (fun c => c.sentiment == label)).length := by
    intro label
    rw [List.count, List.countP_map, ← List.countP_eq_length_filter]
    rfl
  refine ⟨?_, ?_, ?_, ?_, rfl, rfl⟩
  · intro h
    have hlen : ¬ (conversations.filter
        (fun c => dtLe (cutoffFor timeframe now) ⟨c.day, 0⟩)).length = 0 :=
      fun hh => h (List.length_eq_zero.mp hh)
    simp [generate_sentiment_report, hlen]
  · intro h
    simp [generate_sentiment_report, h]
  · intro label n hmem
    have hl : clookup ((conversations.filter
        (fun c => dtLe (cutoffFor timeframe now) ⟨c.day, 0⟩)).map
          AnalyzedConvo.sentiment |> mkCounter) label = some n :=
      clookup_eq_of_mem (mkCounter_fst_nodup _) hmem
    have := mkCounter_count ((conversations.filter
        (fun c => dtLe (cutoffFor timeframe now) ⟨c.day, 0⟩)).map
          AnalyzedConvo.sentiment) label
    rw [hl] at this
    simp only [Option.getD_some] at this
    rw [← hcount label]
    exact this
  · intro label hpos
    have hg := mkCounter_count ((conversations.filter
        (fun c => dtLe (cutoffFor timeframe now) ⟨c.day, 0⟩)).map
          AnalyzedConvo.sentiment) label
    rw [hcount label] at hg
    cases hcl : clookup ((conversations.filter
        (fun c => dtLe (cutoffFor timeframe now) ⟨c.day, 0⟩)).map
          AnalyzedConvo.sentiment |> mkCounter) label with
    | none =>
      rw [hcl] at hg
      simp only [Option.getD_none] at hg
      omega
    | some v =>
      rw [hcl] at hg
      simp only [Option.getD_some] at hg
      subst hg
      exact clookup_some_mem hcl

/-- C6 witness: the rollup theorem applied to the concrete conversations
`wConvos` in the `"last_30_days"` timeframe: the label `"negative"`
occurs in the distribution with count 1, which is the number of filtered
conversations carrying it. -/
theorem C6_sentiment_report_rollup_witness :
    1 = ((wConvos.filter
        (fun c => dtLe (cutoffFor "last_30_days" ⟨110, 5⟩) ⟨c.day, 0⟩)).filter
          (fun c => c.sentiment == "negative")).length :=
  (C6_sentiment_report_rollup wConvos "last_30_days" ⟨110, 5⟩ _ rfl).2.2.1
    "negative" 1 (by decide)

/-- C7: dictionary rollup in the employee report.  For an employee with
at least one stored conversation, the report's `total_conversations` is
the number of retrieved conversations, the counts in its `topics`
dictionary sum to `total_conversations`, and `total_threads` is the
number of distinct non-empty `conversation_id` values among the retrieved
conversations. -/
theorem C7_employee_report_rollup (employee_id : String) (employee_name : Option String)
    (report_date : String) (conversations : List Row) (h : conversations ≠ []) :
    (generate_employee_report employee_id employee_name report_date
        conversations).total_conversations = conversations.length ∧
    (∃ tl, (generate_employee_report employee_id employee_name report_date
        conversations).topics = some tl ∧ (tl.map Prod.snd).sum = conversations.length) ∧
    (generate_employee_report employee_id employee_name report_date
        conversations).total_threads
      = some (((conversations.map Row.conversation_id).filter
          (fun c => !(c == ""))).toFinset.card) := by
  match conversations, h with
  | c :: rest, _ =>
    refine ⟨rfl, ⟨mkCounter ((c :: rest).map Row.topic), rfl, ?_⟩, ?_⟩
    · rw [mkCounter_snd_sum, List.length_map]
    · show some (buildThreads (c :: rest)).length = _
      congr 1
      have hnd : ((buildThreads (c :: rest)).map Prod.fst).Nodup :=
        buildThreads_fst_nodup (c :: rest)
      have hmem : ∀ x : String,
          x ∈ (buildThreads (c :: rest)).map Prod.fst
            ↔ x ∈ ((c :: rest).map Row.conversation_id).filter (fun v => !(v == "")) := by
        intro x
        rw [buildThreads, foldl_threadsStep_fst_mem]
        simp only [List.map_nil, List.not_mem_nil, false_or, List.mem_filter,
          List.mem_map, Bool.not_eq_true', beq_eq_false_iff_ne, ne_eq]
        constructor
        · rintro ⟨hx, r, hr, hrx⟩
          exact ⟨⟨r, hr, hrx⟩, hx⟩
        · rintro ⟨⟨r, hr, hrx⟩, hx⟩
          exact ⟨hx, r, hr, hrx⟩
      calc (buildThreads (c :: rest)).length
          = ((buildThreads (c :: rest)).map Prod.fst).length :=
            (List.length_map _ _).symm
        _ = ((buildThreads (c :: rest)).map Prod.fst).dedup.length := by
            rw [List.dedup_eq_self.mpr hnd]
        _ = ((buildThreads (c :: rest)).map Prod.fst).toFinset.card :=
            (List.card_toFinset _).symm
        _ = (((c :: rest).map Row.conversation_id).filter
              (fun v => !(v == ""))).toFinset.card := by
            congr 1
            ext x
            simp only [List.mem_toFinset]
            exact hmem x

/-- C7 witness: the rollup theorem applied to the concrete rows `wRows`
(three conversations across two threads). -/
theorem C7_employee_report_rollup_witness :
    (generate_employee_report "E1" none "2025-01-01" wRows).total_threads
      = some (((wRows.map Row.conversation_id).filter
          (fun c => !(c == ""))).toFinset.card) :=
  (C7_employee_report_rollup "E1" none "2025-01-01" wRows (by decide)).2.2

theorem dtMin_le_left (a b : SqlDateTime) : dtLe (dtMin a b) a = true := by
  unfold dtMin
  by_cases h : dtLe a b
  · simp [h, dtLe_refl]
  · have htot := dtLe_total a b
    simp [h] at htot
    simp [h, htot]

theorem dtMin_le_right (a b : SqlDateTime) : dtLe (dtMin a b) b = true := by
  unfold dtMin
  by_cases h : dtLe a b
  · simp [h]
  · simp [h, dtLe_refl]

theorem dtMax_ge_left (a b : SqlDateTime) : dtLe a (dtMax a b) = true := by
  unfold dtMax
  by_cases h : dtLe a b
  · simp [h]
  · simp [h, dtLe_refl]

theorem dtMax_ge_right (a b : SqlDateTime) : dtLe b (dtMax a b) = true := by
  unfold dtMax
  by_cases h : dtLe a b
  · simp [h, dtLe_refl]
  · have htot := dtLe_total a b
    simp [h] at htot
    simp [h, htot]

theorem foldl_dtMin_le (gs : List Row) : ∀ a : SqlDateTime,
    dtLe (gs.foldl (fun m r => dtMin m r.date_time) a) a = true ∧
    ∀ r ∈ gs, dtLe (gs.foldl (fun m r => dtMin m r.date_time) a) r.date_time = true := by
  induction gs with
  | nil => exact fun a => ⟨dtLe_refl a, by simp⟩
  | cons g gs ih =>
    intro a
    refine ⟨dtLe_trans (ih (dtMin a g.date_time)).1 (dtMin_le_left a g.date_time), ?_⟩
    intro r hr
    rcases List.mem_cons.mp hr with rfl | hr
    · exact dtLe_trans (ih (dtMin a r.date_time)).1 (dtMin_le_right a r.date_time)
    · exact (ih (dtMin a g.date_time)).2 r hr

theorem foldl_dtMin_mem (gs : List Row) : ∀ a : SqlDateTime,
    gs.foldl (fun m r => dtMin m r.date_time) a = a ∨
    gs.foldl (fun m r => dtMin m r.date_time) a ∈ gs.map Row.date_time := by
  induction gs with
  | nil => exact fun a => Or.inl rfl
  | cons g gs ih =>
    intro a
    rw [List.foldl_cons]
    rcases ih (dtMin a g.date_time) with h | h
    · rw [h]
      unfold dtMin
      by_cases hab : dtLe a g.date_time
      · exact Or.inl (by simp [hab])
      · exact Or.inr (by simp [hab])
    · exact Or.inr (by simpa using Or.inr h)

theorem foldl_dtMax_ge (gs : List Row) : ∀ a : SqlDateTime,
    dtLe a (gs.foldl (fun m r => dtMax m r.date_time) a) = true ∧
    ∀ r ∈ gs, dtLe r.date_time (gs.foldl (fun m r => dtMax m r.date_time) a) = true := by
  induction gs with
  | nil => exact fun a => ⟨dtLe_refl a, by simp⟩
  | cons g gs ih =>
    intro a
    refine ⟨dtLe_trans (dtMax_ge_left a g.date_time) (ih (dtMax a g.date_time)).1, ?_⟩
    intro r hr
    rcases List.mem_cons.mp hr with rfl | hr
    · exact dtLe_trans (dtMax_ge_right a r.date_time) (ih (dtMax a r.date_time)).1
    · exact (ih (dtMax a g.date_time)).2 r hr

theorem foldl_dtMax_mem (gs : List Row) : ∀ a : SqlDateTime,
    gs.foldl (fun m r => dtMax m r.date_time) a = a ∨
    gs.foldl (fun m r => dtMax m r.date_time) a ∈ gs.map Row.date_time := by
  induction gs with
  | nil => exact fun a => Or.inl rfl
  | cons g gs ih =>
    intro a
    rw [List.foldl_cons]
    rcases ih (dtMax a g.date_time) with h | h
    · rw [h]
      unfold dtMax
      by_cases hab : dtLe a g.date_time
      · exact Or.inr (by simp [hab])
      · exact Or.inl (by simp [hab])
    · exact Or.inr (by simpa using Or.inr h)

theorem threadSummary_conversation_id (cid : String) (g : List Row) :
    (threadSummary cid g).conversation_id = cid := by
  cases g <;> rfl

theorem threadSummary_message_count (cid : String) (g : List Row) :
    (threadSummary cid g).message_count = g.length := by
  cases g <;> rfl

theorem threadSummary_start_min (cid : String) (g : List Row) (hg : g ≠ []) :
    (threadSummary cid g).start_time ∈ g.map Row.date_time ∧
    ∀ d ∈ g.map Row.date_time, dtLe (threadSummary cid g).start_time d = true := by
  match g, hg with
  | r :: rs, _ =>
    constructor
    · show rs.foldl (fun m x => dtMin m x.date_time) r.date_time ∈ _
      rcases foldl_dtMin_mem rs r.date_time with h | h
      · rw [h]
        simp
      · simp only [List.map_cons, List.mem_cons]
        exact Or.inr h
    · intro d hd
      simp only [List.map_cons, List.mem_cons] at hd
      rcases hd with rfl | hd
      · exact (foldl_dtMin_le rs r.date_time).1
      · rcases List.mem_map.mp hd with ⟨x, hx, rfl⟩
        exact (foldl_dtMin_le rs r.date_time).2 x hx

theorem threadSummary_end_max (cid : String) (g : List Row) (hg : g ≠ []) :
    (threadSummary cid g).end_time ∈ g.map Row.date_time ∧
    ∀ d ∈ g.map Row.date_time, dtLe d (threadSummary cid g).end_time = true := by
  match g, hg with
  | r :: rs, _ =>
    constructor
    · show rs.foldl (fun m x => dtMax m x.date_time) r.date_time ∈ _
      rcases foldl_dtMax_mem rs r.date_time with h | h
      · rw [h]
        simp
      · simp only [List.map_cons, List.mem_cons]
        exact Or.inr h
    · intro d hd
      simp only [List.map_cons, List.mem_cons] at hd
      rcases hd with rfl | hd
      · exact (foldl_dtMax_ge rs r.date_time).1
      · rcases List.mem_map.mp hd with ⟨x, hx, rfl⟩
        exact (foldl_dtMax_ge rs r.date_time).2 x hx

theorem get_conversation_threads_eq (convs : List Row) (limit : Nat) :
    get_conversation_threads convs limit
      = (sortLe (fun a b => dtLe b.start_time a.start_time)
          (((convs.map Row.conversation_id).dedup).map
            (fun cid => threadSummary cid
              (convs.filter (fun r => r.conversation_id == cid))))).take limit := rfl

/-- C2: thread grouping.  `get_conversation_threads` returns exactly one
row per distinct `conversation_id` present in the table (up to the
limit): its length is the number of distinct ids capped by the limit, the
returned ids are pairwise distinct and, when the limit is not reached,
every present id is returned.  `message_count` is the number of rows of
the thread, `start_time` and `end_time` are the minimum resp. maximum
`date_time` among them, and the rows come ordered by `start_time`
descending. -/
theorem C2_thread_grouping (convs : List Row) (limit : Nat) :
    (get_conversation_threads convs limit).length
      = min (convs.map Row.conversation_id).toFinset.card limit ∧
    ((get_conversation_threads convs limit).map ThreadSummary.conversation_id).Nodup ∧
    (∀ t ∈ get_conversation_threads convs limit,
      t.conversation_id ∈ convs.map Row.conversation_id ∧
      t.message_count
        = (convs.filter (fun r => r.conversation_id == t.conversation_id)).length ∧
      t.start_time ∈ (convs.filter
          (fun r => r.conversation_id == t.conversation_id)).map Row.date_time ∧
      (∀ d ∈ (convs.filter
          (fun r => r.conversation_id == t.conversation_id)).map Row.date_time,
        dtLe t.start_time d = true) ∧
      t.end_time ∈ (convs.filter
          (fun r => r.conversation_id == t.conversation_id)).map Row.date_time ∧
      (∀ d ∈ (convs.filter
          (fun r => r.conversation_id == t.conversation_id)).map Row.date_time,
        dtLe d t.end_time = true)) ∧
    ((convs.map Row.conversation_id).toFinset.card ≤ limit →
      ∀ c ∈ convs.map Row.conversation_id,
        ∃ t ∈ get_conversation_threads convs limit, t.conversation_id = c) ∧
    List.Pairwise (fun a b => dtLe b.start_time a.start_time = true)
      (get_conversation_threads convs limit) := by
  have hperm : (sortLe (fun a b => dtLe b.start_time a.start_time)
      (((convs.map Row.conversation_id).dedup).map
        (fun cid => threadSummary cid
          (convs.filter (fun r => r.conversation_id == cid))))).Perm
      (((convs.map Row.conversation_id).dedup).map
        (fun cid => threadSummary cid
          (convs.filter (fun r => r.conversation_id == cid)))) :=
    sortLe_perm _ _
  have hsumlen : (((convs.map Row.conversation_id).dedup).map
      (fun cid => threadSummary cid
        (convs.filter (fun r => r.conversation_id == cid)))).length
      = (convs.map Row.conversation_id).toFinset.card := by
    rw [List.length_map, List.card_toFinset]
  have hmapcid : (((convs.map Row.conversation_id).dedup).map
      (fun cid => threadSummary cid
        (convs.filter (fun r => r.conversation_id == cid)))).map
        ThreadSummary.conversation_id
      = (convs.map Row.conversation_id).dedup := by
    rw [List.map_map]
    have hco : (ThreadSummary.conversation_id ∘ fun cid => threadSummary cid
        (convs.filter (fun r => r.conversation_id == cid))) = id := by
      funext cid
      exact threadSummary_conversation_id cid _
    rw [hco, List.map_id]
  refine ⟨?_, ?_, ?_, ?_, ?_⟩
  · rw [get_conversation_threads_eq, List.length_take, sortLe_length, hsumlen,
      Nat.min_comm]
  · rw [get_conversation_threads_eq]
    refine List.Nodup.sublist (List.Sublist.map _ (List.take_sublist _ _)) ?_
    rw [(hperm.map ThreadSummary.conversation_id).nodup_iff, hmapcid]
    exact List.nodup_dedup _
  · intro t ht
    rw [get_conversation_threads_eq] at ht
    have ht2 : t ∈ ((convs.map Row.conversation_id).dedup).map
        (fun cid => threadSummary cid
          (convs.filter (fun r => r.conversation_id == cid))) :=
      hperm.mem_iff.mp (List.mem_of_mem_take ht)
    rcases List.mem_map.mp ht2 with ⟨cid, hcid, rfl⟩
    have hcid2 : cid ∈ convs.map Row.conversation_id := List.mem_dedup.mp hcid
    rcases List.mem_map.mp hcid2 with ⟨r, hr, hrc⟩
    have hgrp : convs.filter (fun x => x.conversation_id == cid) ≠ [] := by
      refine List.ne_nil_of_mem (List.mem_filter.mpr ⟨hr, ?_⟩)
      simp [hrc]
    simp only [threadSummary_conversation_id]
    refine ⟨hcid2, threadSummary_message_count cid _, ?_, ?_, ?_, ?_⟩
    · exact (threadSummary_start_min cid _ hgrp).1
    · exact (threadSummary_start_min cid _ hgrp).2
    · exact (threadSummary_end_max cid _ hgrp).1
    · exact (threadSummary_end_max cid _ hgrp).2
  · intro hlim c hc
    have htake : (sortLe (fun a b => dtLe b.start_time a.start_time)
        (((convs.map Row.conversation_id).dedup).map
          (fun cid => threadSummary cid
            (convs.filter (fun r => r.conversation_id == cid))))).take limit
        = sortLe (fun a b => dtLe b.start_time a.start_time)
          (((convs.map Row.conversation_id).dedup).map
            (fun cid => threadSummary cid
              (convs.filter (fun r => r.conversation_id == cid)))) := by
      refine List.take_of_length_le ?_
      rw [sortLe_length, hsumlen]
      exact hlim
    refine ⟨threadSummary c (convs.filter (fun r => r.conversation_id == c)), ?_,
      threadSummary_conversation_id c _⟩
    rw [get_conversation_threads_eq, htake, hperm.mem_iff]
    exact List.mem_map_of_mem _ (List.mem_dedup.mpr hc)
  · rw [get_conversation_threads_eq]
    refine List.Pairwise.sublist (List.take_sublist _ _) ?_
    refine sortLe_pairwise _ ?_ ?_ _
    · intro x y z h1 h2
      exact dtLe_trans h2 h1
    · intro x y
      exact dtLe_total y.start_time x.start_time

/-- C2 witness: the grouping theorem applied to the concrete rows `wRows`
(three rows, two threads): two summaries are returned, and the thread
`"T1"` with its two messages is among them. -/
theorem C2_thread_grouping_witness :
    (get_conversation_threads wRows 10).length
      = min ((wRows.map Row.conversation_id).toFinset.card) 10 ∧
    ∃ t ∈ get_conversation_threads wRows 10, t.conversation_id = "T1" :=
  ⟨(C2_thread_grouping wRows 10).1,
   (C2_thread_grouping wRows 10).2.2.2.1 (by decide) "T1" (by decide)⟩

theorem get_conversation_counts_by_date_eq (convs : List Row) (days today : Nat) :
    get_conversation_counts_by_date convs days today
      = (sortLe (fun a b => decide (a ≤ b))
          (((convs.filter (fun r => decide (today - days ≤ r.date_time.day))).map
            (fun r => r.date_time.day)).dedup)).map
          (fun d => (d, ((convs.filter
              (fun r => decide (today - days ≤ r.date_time.day))).filter
            (fun r => r.date_time.day == d)).length)) := rfl

/-- C9: grouped count by date.  For a table whose rows are all dated no
later than today (as every row saved by the application is),
`get_conversation_counts_by_date` returns exactly one entry per calendar
day of the last `days` days on which at least one conversation occurred
(the returned days are pairwise distinct, every such day occurs, and no
other entry occurs), each entry counting the conversations of that day,
ordered by day ascending. -/
theorem C9_counts_by_date (convs : List Row) (days today : Nat) (hdays : 0 < days)
    (hpast : ∀ r ∈ convs, r.date_time.day ≤ today) :
    (∀ p ∈ get_conversation_counts_by_date convs days today,
      today - days ≤ p.1 ∧ p.1 ≤ today ∧ 0 < p.2 ∧
      p.2 = (convs.filter (fun r => r.date_time.day == p.1)).length) ∧
    (∀ d, today - days ≤ d → (∃ r ∈ convs, r.date_time.day = d) →
      ∃ c, (d, c) ∈ get_conversation_counts_by_date convs days today) ∧
    ((get_conversation_counts_by_date convs days today).map Prod.fst).Nodup ∧
    List.Pairwise (fun p q : Nat × Nat => p.1 ≤ q.1)
      (get_conversation_counts_by_date convs days today) := by
  have hmemday : ∀ d : Nat,
      d ∈ sortLe (fun a b => decide (a ≤ b))
        (((convs.filter (fun r => decide (today - days ≤ r.date_time.day))).map
          (fun r => r.date_time.day)).dedup)
      ↔ ∃ r ∈ convs, today - days ≤ r.date_time.day ∧ r.date_time.day = d := by
    intro d
    rw [(sortLe_perm _ _).mem_iff, List.mem_dedup]
    constructor
    · intro h
      rcases List.mem_map.mp h with ⟨r, hr, rfl⟩
      rcases List.mem_filter.mp hr with ⟨hrc, hrd⟩
      exact ⟨r, hrc, by simpa using hrd, rfl⟩
    · rintro ⟨r, hr, hrd, rfl⟩
      exact List.mem_map_of_mem _ (List.mem_filter.mpr ⟨hr, by simpa using hrd⟩)
  have hcnt : ∀ d : Nat, today - days ≤ d →
      ((convs.filter (fun r => decide (today - days ≤ r.date_time.day))).filter
        (fun r => r.date_time.day == d)).length
      = (convs.filter (fun r => r.date_time.day == d)).length := by
    intro d hd
    rw [List.filter_filter]
    congr 1
    refine List.filter_congr ?_
    intro r _
    by_cases hrd : r.date_time.day = d
    · simp [hrd, hd]
    · simp [hrd]
  refine ⟨?_, ?_, ?_, ?_⟩
  · intro p hp
    rw [get_conversation_counts_by_date_eq] at hp
    rcases List.mem_map.mp hp with ⟨d, hd, rfl⟩
    rcases (hmemday d).mp hd with ⟨r, hr, hrcut, hrd⟩
    have hcut : today - days ≤ d := hrd ▸ hrcut
    have hdtoday : d ≤ today := hrd ▸ hpast r hr
    refine ⟨hcut, hdtoday, ?_, hcnt d hcut⟩
    have hrmem : r ∈ (convs.filter
        (fun x => decide (today - days ≤ x.date_time.day))).filter
          (fun x => x.date_time.day == d) := by
      refine List.mem_filter.mpr ⟨List.mem_filter.mpr ⟨hr, by simpa using hrcut⟩, ?_⟩
      simp [hrd]
    exact List.length_pos.mpr (List.ne_nil_of_mem hrmem)
  · rintro d hd ⟨r, hr, hrd⟩
    refine ⟨((convs.filter (fun x => decide (today - days ≤ x.date_time.day))).filter
      (fun x => x.date_time.day == d)).length, ?_⟩
    rw [get_conversation_counts_by_date_eq]
    refine List.mem_map_of_mem _ ?_
    exact (hmemday d).mpr ⟨r, hr, hrd ▸ hd, hrd⟩
  · rw [get_conversation_counts_by_date_eq, List.map_map]
    have hco : (Prod.fst ∘ fun d : Nat =>
        (d, ((convs.filter (fun r => decide (today - days ≤ r.date_time.day))).filter
          (fun r => r.date_time.day == d)).length)) = id := by
      funext d
      rfl
    rw [hco, List.map_id, (sortLe_perm _ _).nodup_iff]
    exact List.nodup_dedup _
  · rw [get_conversation_counts_by_date_eq]
    rw [List.pairwise_map]
    have hs := sortLe_pairwise (fun a b : Nat => decide (a ≤ b))
      (by intro x y z h1 h2; simp at h1 h2 ⊢; omega)
      (by intro x y; simp; omega)
      (((convs.filter (fun r => decide (today - days ≤ r.date_time.day))).map
        (fun r => r.date_time.day)).dedup)
    exact hs.imp (by intro a b h; simpa using h)

/-- C9 witness: the theorem applied to the concrete rows `wRows` with a
30-day window at day 20: the entry for day 5 counts exactly the one
conversation of that day. -/
theorem C9_counts_by_date_witness :
    20 - 30 ≤ (5 : Nat) ∧ (5 : Nat) ≤ 20 ∧ 0 < 1 ∧
      1 = (wRows.filter (fun r => r.date_time.day == (5 : Nat))).length :=
  (C9_counts_by_date wRows 30 20 (by decide) (by decide)).1 (5, 1) (by decide)

theorem dec1_fst (m : List (String × Nat)) (n : String) :
    (dec1 m n).map Prod.fst = m.map Prod.fst := by
  induction m with
  | nil => rfl
  | cons p ps ih =>
    by_cases h : p.1 = n
    · by_cases h2 : 0 < p.2 <;> simp [dec1, h, h2]
    · simp [dec1, h, ih]

theorem decN_fst (m : List (String × Nat)) (n : String) (k : Nat) :
    (decN m n k).map Prod.fst = m.map Prod.fst := by
  induction m with
  | nil => rfl
  | cons p ps ih =>
    by_cases h : p.1 = n
    · by_cases h2 : k ≤ p.2 <;> simp [decN, h, h2]
    · simp [decN, h, ih]

theorem clookup_dec1 (m : List (String × Nat)) (n j : String) :
    clookup (dec1 m n) j
      = if j = n then (clookup m n).map (fun c => if 0 < c then c - 1 else c)
        else clookup m j := by
  induction m with
  | nil =>
    by_cases h : j = n <;> simp [dec1, clookup, h]
  | cons p ps ih =>
    by_cases hpn : p.1 = n
    · by_cases hjn : j = n
      · subst hjn
        by_cases h2 : 0 < p.2 <;> simp [dec1, clookup, hpn, h2]
      · have hpj : ¬ p.1 = j := fun hh => hjn ((hpn ▸ hh).symm ▸ rfl)
        have hnj : ¬ n = j := fun hh => hjn hh.symm
        by_cases h2 : 0 < p.2 <;> simp [dec1, clookup, hpn, hpj, hjn, hnj, h2]
    · by_cases hpj : p.1 = j
      · have hjn : ¬ j = n := fun hh => hpn (hpj.symm ▸ hh)
        simp [dec1, clookup, hpn, hpj, hjn]
      · simp [dec1, clookup, hpn, hpj, ih]

theorem clookup_decN (m : List (String × Nat)) (n : String) (k : Nat) (j : String) :
    clookup (decN m n k) j
      = if j = n then (clookup m n).map (fun c => if k ≤ c then c - k else c)
        else clookup m j := by
  induction m with
  | nil =>
    by_cases h : j = n <;> simp [decN, clookup, h]
  | cons p ps ih =>
    by_cases hpn : p.1 = n
    · by_cases hjn : j = n
      · subst hjn
        by_cases h2 : k ≤ p.2 <;> simp [decN, clookup, hpn, h2]
      · have hpj : ¬ p.1 = j := fun hh => hjn ((hpn ▸ hh).symm ▸ rfl)
        have hnj : ¬ n = j := fun hh => hjn hh.symm
        by_cases h2 : k ≤ p.2 <;> simp [decN, clookup, hpn, hpj, hjn, hnj, h2]
    · by_cases hpj : p.1 = j
      · have hjn : ¬ j = n := fun hh => hpn (hpj.symm ▸ hh)
        simp [decN, clookup, hpn, hpj, hjn]
      · simp [decN, clookup, hpn, hpj, ih]

theorem topicRows_cons (c : Row) (cs : List Row) (name : String) :
    topicRows (c :: cs) name
      = topicRows cs name + (if c.topic == some name then 1 else 0) := by
  unfold topicRows
  rw [List.filter_cons]
  by_cases h : c.topic == some name <;> simp [h]

theorem topicRows_append (l1 l2 : List Row) (name : String) :
    topicRows (l1 ++ l2) name = topicRows l1 name + topicRows l2 name := by
  unfold topicRows
  rw [List.filter_append, List.length_append]

theorem topicRows_pos_of_mem (convs : List Row) (r : Row) (name : String)
    (hr : r ∈ convs) (ht : (r.topic == some name) = true) :
    0 < topicRows convs name := by
  unfold topicRows
  exact List.length_pos.mpr (List.ne_nil_of_mem (List.mem_filter.mpr ⟨hr, ht⟩))

theorem topicRows_split (convs : List Row) (p : Row → Bool) (name : String) :
    topicRows convs name
      = topicRows (convs.filter p) name
        + topicRows (convs.filter (fun r => !(p r))) name := by
  induction convs with
  | nil => simp [topicRows]
  | cons c cs ih =>
    by_cases hp : p c <;>
      simp only [List.filter_cons, hp, Bool.not_true, Bool.not_false, ite_true,
        ite_false, Bool.false_eq_true, topicRows_cons, ih] <;>
      omega

theorem findRow_cons (c : Row) (cs : List Row) (i : Nat) :
    findRow (c :: cs) i = if c.id == i then some c else findRow cs i := by
  unfold findRow
  rw [List.find?_cons]
  by_cases h : c.id == i <;> simp [h]

theorem findRow_nil (i : Nat) : findRow [] i = none := rfl

theorem topicRows_remove_id (convs : List Row) (i : Nat) (r : Row) (name : String)
    (hnd : (convs.map Row.id).Nodup) (hf : findRow convs i = some r) :
    topicRows (convs.filter (fun x => !(x.id == i))) name
      = topicRows convs name - (if r.topic == some name then 1 else 0) := by
  revert hnd hf
  induction convs with
  | nil =>
    intro hnd hf
    rw [findRow_nil] at hf
    exact absurd hf (by simp)
  | cons c cs ih =>
    intro hnd hf
    simp only [List.map_cons, List.nodup_cons] at hnd
    rw [findRow_cons] at hf
    by_cases hc : c.id == i
    · rw [if_pos hc] at hf
      have hcr : c = r := by
        injection hf
      subst hcr
      have hrest : cs.filter (fun x => !(x.id == i)) = cs := by
        rw [List.filter_eq_self]
        intro a ha
        have hne : a.id ≠ c.id := by
          intro hh
          exact hnd.1 (hh ▸ List.mem_map_of_mem Row.id ha)
        have : a.id ≠ i := fun hh => hne (hh.trans (beq_iff_eq.mp hc).symm)
        simpa using this
      simp only [List.filter_cons, hc, Bool.not_true, Bool.false_eq_true, ite_false,
        hrest, topicRows_cons]
      by_cases hct : (c.topic == some name) = true <;> simp [hct] <;> omega
    · rw [if_neg (by simpa using hc)] at hf
      have hpos : (r.topic == some name) = true → 0 < topicRows cs name := fun hh =>
        topicRows_pos_of_mem cs r name (List.mem_of_find?_eq_some hf) hh
      simp only [List.filter_cons, hc, Bool.not_false, ite_true, topicRows_cons,
        ih hnd.2 hf]
      by_cases hrt : (r.topic == some name) = true
      · have h9 := hpos hrt
        by_cases hct : (c.topic == some name) = true <;> simp [hct, hrt] <;> omega
      · by_cases hct : (c.topic == some name) = true <;> simp [hct, hrt] <;> omega

theorem findRow_none_filter (convs : List Row) (i : Nat)
    (hf : findRow convs i = none) :
    convs.filter (fun x => !(x.id == i)) = convs := by
  rw [List.filter_eq_self]
  intro a ha
  have := List.find?_eq_none.mp hf a ha
  simpa using this

theorem map_setTopic_eq_self (cs : List Row) (i : Nat) (nt : Option String)
    (h : ∀ x ∈ cs, ¬ x.id = i) : cs.map (setTopic i nt) = cs := by
  induction cs with
  | nil => rfl
  | cons c cs ih =>
    have hc : ¬ c.id = i := h c (List.mem_cons_self c cs)
    simp only [List.map_cons, setTopic, beq_iff_eq, hc, ite_false]
    rw [ih (fun x hx => h x (List.mem_cons_of_mem c hx))]

theorem topicRows_setTopic (convs : List Row) (i : Nat) (nt : Option String) (r : Row)
    (name : String) (hnd : (convs.map Row.id).Nodup) (hf : findRow convs i = some r) :
    topicRows (convs.map (setTopic i nt)) name
      = topicRows convs name - (if r.topic == some name then 1 else 0)
        + (if nt == some name then 1 else 0) := by
  revert hnd hf
  induction convs with
  | nil =>
    intro hnd hf
    rw [findRow_nil] at hf
    exact absurd hf (by simp)
  | cons c cs ih =>
    intro hnd hf
    simp only [List.map_cons, List.nodup_cons] at hnd
    rw [findRow_cons] at hf
    by_cases hc : c.id == i
    · rw [if_pos hc] at hf
      have hcr : c = r := by
        injection hf
      subst hcr
      have hrest : cs.map (setTopic i nt) = cs := by
        refine map_setTopic_eq_self cs i nt ?_
        intro x hx hxi
        refine hnd.1 ?_
        have hcx : c.id = x.id := (beq_iff_eq.mp hc).trans hxi.symm
        rw [hcx]
        exact List.mem_map_of_mem Row.id hx
      simp only [List.map_cons, setTopic, hc, ite_true, hrest, topicRows_cons]
      by_cases hct : (c.topic == some name) = true <;>
        by_cases hnt : (nt == some name) = true <;> simp [hct, hnt] <;> omega
    · rw [if_neg (by simpa using hc)] at hf
      have hpos : (r.topic == some name) = true → 0 < topicRows cs name := fun hh =>
        topicRows_pos_of_mem cs r name (List.mem_of_find?_eq_some hf) hh
      simp only [List.map_cons, setTopic, hc, Bool.false_eq_true, ite_false,
        topicRows_cons, ih hnd.2 hf]
      by_cases hrt : (r.topic == some name) = true
      · have h9 := hpos hrt
        by_cases hct : (c.topic == some name) = true <;>
          by_cases hnt : (nt == some name) = true <;> simp [hct, hrt, hnt] <;> omega
      · by_cases hct : (c.topic == some name) = true <;>
          by_cases hnt : (nt == some name) = true <;> simp [hct, hrt, hnt] <;> omega

theorem threadTopicsUpdate_fst (tr : List Row) (acc : List (String × Nat))
    (t : Option String) :
    (threadTopicsUpdate tr acc t).map Prod.fst = acc.map Prod.fst := by
  cases t with
  | none => rfl
  | some name =>
    by_cases hn : name == ""
    · simp [threadTopicsUpdate, hn]
    · by_cases hp : 0 < (tr.filter (fun r => r.topic == some name)).length <;>
        simp [threadTopicsUpdate, hn, hp, decN_fst]

theorem foldl_threadTopicsUpdate_fst (l : List (Option String)) (tr : List Row) :
    ∀ acc : List (String × Nat),
      ((l.foldl (threadTopicsUpdate tr) acc).map Prod.fst) = acc.map Prod.fst := by
  induction l with
  | nil => exact fun acc => rfl
  | cons t rest ih =>
    intro acc
    rw [List.foldl_cons, ih (threadTopicsUpdate tr acc t), threadTopicsUpdate_fst]

theorem clookup_threadTopicsUpdate_other (tr : List Row) (acc : List (String × Nat))
    (t : Option String) (m : String) (h : t ≠ some m) :
    clookup (threadTopicsUpdate tr acc t) m = clookup acc m := by
  cases t with
  | none => rfl
  | some name =>
    have hnm : ¬ m = name := fun hh => h (congrArg some hh.symm)
    by_cases hn : name == ""
    · simp [threadTopicsUpdate, hn]
    · by_cases hp : 0 < (tr.filter (fun r => r.topic == some name)).length <;>
        simp [threadTopicsUpdate, hn, hp, clookup_decN, hnm]

theorem clookup_foldl_tu_not_mem (l : List (Option String)) (tr : List Row) (m : String) :
    ∀ acc : List (String × Nat), some m ∉ l →
      clookup (l.foldl (threadTopicsUpdate tr) acc) m = clookup acc m := by
  induction l with
  | nil => exact fun acc _ => rfl
  | cons t rest ih =>
    intro acc h
    have ht : t ≠ some m := fun hh => h (hh ▸ List.mem_cons_self t rest)
    have hrest : some m ∉ rest := fun hh => h (List.mem_cons_of_mem t hh)
    rw [List.foldl_cons, ih _ hrest, clookup_threadTopicsUpdate_other tr acc t m ht]

theorem clookup_threadTopicsUpdate_congr (tr : List Row)
    (acc1 acc2 : List (String × Nat)) (m : String)
    (h : clookup acc1 m = clookup acc2 m) :
    clookup (threadTopicsUpdate tr acc1 (some m)) m
      = clookup (threadTopicsUpdate tr acc2 (some m)) m := by
  by_cases hn : m == ""
  · simpa [threadTopicsUpdate, hn] using h
  · by_cases hp : 0 < (tr.filter (fun r => r.topic == some m)).length <;>
      simp [threadTopicsUpdate, hn, hp, clookup_decN, h]

theorem clookup_foldl_tu_mem (l : List (Option String)) (tr : List Row) (m : String) :
    ∀ acc : List (String × Nat), l.Nodup → some m ∈ l →
      clookup (l.foldl (threadTopicsUpdate tr) acc) m
        = clookup (threadTopicsUpdate tr acc (some m)) m := by
  induction l with
  | nil =>
    intro acc _ hm
    exact absurd hm (by simp)
  | cons t rest ih =>
    intro acc hnd hm
    rcases List.nodup_cons.mp hnd with ⟨ht, hrest⟩
    by_cases htm : t = some m
    · subst htm
      rw [List.foldl_cons]
      exact clookup_foldl_tu_not_mem rest tr m _ ht
    · have hm2 : some m ∈ rest := by
        rcases List.mem_cons.mp hm with hh | hh
        · exact absurd hh.symm htm
        · exact hh
      rw [List.foldl_cons, ih _ hrest hm2]
      exact clookup_threadTopicsUpdate_congr tr _ _ m
        (clookup_threadTopicsUpdate_other tr acc t m htm)

theorem mem_dedup_topic (tr : List Row) (name : String) :
    some name ∈ (tr.map Row.topic).dedup ↔ 0 < topicRows tr name := by
  rw [List.mem_dedup]
  constructor
  · intro h
    rcases List.mem_map.mp h with ⟨r, hrm, hrt⟩
    exact topicRows_pos_of_mem tr r name hrm (by simp [hrt])
  · intro h
    have hne : tr.filter (fun r => r.topic == some name) ≠ [] :=
      List.length_pos.mp h
    rcases List.exists_mem_of_ne_nil _ hne with ⟨r, hr⟩
    rcases List.mem_filter.mp hr with ⟨hrm, hrt⟩
    have : r.topic = some name := beq_iff_eq.mp hrt
    exact this ▸ List.mem_map_of_mem Row.topic hrm

theorem keys_ne_of_fst_eq {m1 m2 : List (String × Nat)}
    (hfst : m1.map Prod.fst = m2.map Prod.fst)
    (h : ∀ p ∈ m2, p.1 ≠ "") : ∀ p ∈ m1, p.1 ≠ "" := by
  intro p hp
  have hmem : p.1 ∈ m2.map Prod.fst := by
    rw [← hfst]
    exact List.mem_map_of_mem Prod.fst hp
  rcases List.mem_map.mp hmem with ⟨q, hq, hq2⟩
  exact hq2 ▸ h q hq

theorem inv_save_aux (s : DBState) (row : Row) (hrid : row.id = s.nextId)
    (h : TopicsInv s) :
    TopicsInv ⟨s.convs ++ [row],
      (match row.topic with
        | some t => if t == "" then s.topics else counterBump s.topics t
        | none => s.topics), s.nextId + 1⟩ := by
  obtain ⟨h1, h2, h3, h4, h5⟩ := h
  have hid : ((s.convs ++ [row]).map Row.id).Nodup := by
    rw [List.map_append]
    rw [List.nodup_append]
    refine ⟨h4, by simp, ?_⟩
    intro x hx
    rcases List.mem_map.mp hx with ⟨r, hr, rfl⟩
    have h6 := h5 r hr
    simp only [List.map_cons, List.map_nil, List.mem_singleton, hrid]
    omega
  have hlt : ∀ r ∈ s.convs ++ [row], r.id < s.nextId + 1 := by
    intro r hr
    rcases List.mem_append.mp hr with hr | hr
    · have := h5 r hr
      omega
    · rcases List.mem_singleton.mp hr with rfl
      rw [hrid]
      omega
  have hrows : ∀ name : String,
      topicRows (s.convs ++ [row]) name
        = topicRows s.convs name + (if row.topic == some name then 1 else 0) := by
    intro name
    rw [topicRows_append, topicRows_cons]
    simp [topicRows]
  cases htp : row.topic with
  | none =>
    refine ⟨h1, h2, ?_, hid, hlt⟩
    intro name hn
    show (clookup s.topics name).getD 0 = topicRows (s.convs ++ [row]) name
    rw [hrows name, htp]
    simpa using h3 name hn
  | some t =>
    by_cases ht : t == ""
    · have ht2 : t = "" := by simpa using ht
      simp only [ht, ite_true]
      refine ⟨h1, h2, ?_, hid, hlt⟩
      intro name hn
      show (clookup s.topics name).getD 0 = topicRows (s.convs ++ [row]) name
      rw [hrows name, htp]
      have hd : (some t == some name) = false := by
        simp [ht2]
        exact fun hh => hn hh.symm
      rw [hd]
      simpa using h3 name hn
    · have ht2 : t ≠ "" := by simpa using ht
      simp only [ht, Bool.false_eq_true, ite_false]
      refine ⟨counterBump_fst_nodup s.topics t h1, ?_, ?_, hid, hlt⟩
      · intro p hp
        have hmem : p.1 ∈ (counterBump s.topics t).map Prod.fst :=
          List.mem_map_of_mem Prod.fst hp
        rcases (counterBump_fst_mem s.topics t p.1).mp hmem with hmm | rfl
        · rcases List.mem_map.mp hmm with ⟨q, hq, hq2⟩
          exact hq2 ▸ h2 q hq
        · exact ht2
      · intro name hn
        show (clookup (counterBump s.topics t) name).getD 0
          = topicRows (s.convs ++ [row]) name
        rw [hrows name, htp, clookup_counterBump]
        by_cases hnt : name = t
        · subst hnt
          simp [h3 name hn]
        · have hd : (some t == some name) = false := by
            simp
            exact fun hh => hnt hh.symm
          simp [hnt, hd, h3 name hn]

theorem inv_save (s : DBState) (a b c d : String) (su tp ci : Option String)
    (ts : String) (dt : SqlDateTime) (h : TopicsInv s) :
    TopicsInv (save_conversation s a b c d su tp ci ts dt).1 :=
  inv_save_aux s ⟨s.nextId, a, b, c, d, su, tp, dt,
    match ci with
    | some cc => if cc == "" then a ++ "_" ++ ts else cc
    | none => a ++ "_" ++ ts⟩ rfl h

theorem inv_delete (s : DBState) (rid : Nat) (h : TopicsInv s) :
    TopicsInv (delete_conversation s rid).1 := by
  obtain ⟨h1, h2, h3, h4, h5⟩ := h
  have hid : ((s.convs.filter (fun r => !(r.id == rid))).map Row.id).Nodup :=
    List.Nodup.sublist (List.Sublist.map Row.id (List.filter_sublist s.convs)) h4
  have hlt : ∀ r ∈ s.convs.filter (fun r => !(r.id == rid)), r.id < s.nextId := by
    intro r hr
    exact h5 r (List.mem_filter.mp hr).1
  cases hf : findRow s.convs rid with
  | none =>
    simp only [delete_conversation, hf]
    rw [findRow_none_filter s.convs rid hf]
    exact ⟨h1, h2, h3, h4, h5⟩
  | some r =>
    have hr : r ∈ s.convs := List.mem_of_find?_eq_some hf
    simp only [delete_conversation, hf]
    cases htp : r.topic with
    | none =>
      refine ⟨h1, h2, ?_, hid, hlt⟩
      intro name hn
      show (clookup s.topics name).getD 0
        = topicRows (s.convs.filter (fun r => !(r.id == rid))) name
      rw [topicRows_remove_id s.convs rid r name h4 hf, htp]
      simp [h3 name hn]
    | some t =>
      by_cases ht : t == ""
      · have ht2 : t = "" := by simpa using ht
        simp only [ht, ite_true]
        refine ⟨h1, h2, ?_, hid, hlt⟩
        intro name hn
        show (clookup s.topics name).getD 0
          = topicRows (s.convs.filter (fun r => !(r.id == rid))) name
        rw [topicRows_remove_id s.convs rid r name h4 hf, htp]
        have hd : (some t == some name) = false := by
          simp [ht2]
          exact fun hh => hn hh.symm
        rw [hd]
        simp [h3 name hn]
      · simp only [ht, Bool.false_eq_true, ite_false]
        refine ⟨by rw [dec1_fst]; exact h1,
          keys_ne_of_fst_eq (dec1_fst s.topics t) h2, ?_, hid, hlt⟩
        intro name hn
        show (clookup (dec1 s.topics t) name).getD 0
          = topicRows (s.convs.filter (fun r => !(r.id == rid))) name
        rw [topicRows_remove_id s.convs rid r name h4 hf, htp, clookup_dec1]
        by_cases hnt : name = t
        · subst hnt
          have hpos : 0 < topicRows s.convs name :=
            topicRows_pos_of_mem s.convs r name hr (by simp [htp])
          have hg := h3 name hn
          rw [if_pos rfl]
          cases hcl : clookup s.topics name with
          | none =>
            rw [hcl] at hg
            simp only [Option.getD_none] at hg
            omega
          | some v =>
            rw [hcl] at hg
            simp only [Option.getD_some] at hg
            subst hg
            simp [hpos]
        · rw [if_neg hnt]
          have hd : (some t == some name) = false := by
            simp
            exact fun hh => hnt hh.symm
          rw [hd]
          simp [h3 name hn]

theorem inv_deleteThread (s : DBState) (tid : String) (h : TopicsInv s) :
    TopicsInv (delete_conversation_thread s tid).1 := by
  obtain ⟨h1, h2, h3, h4, h5⟩ := h
  have hid : ((s.convs.filter (fun r => !(r.conversation_id == tid))).map Row.id).Nodup :=
    List.Nodup.sublist (List.Sublist.map Row.id (List.filter_sublist s.convs)) h4
  have hlt : ∀ r ∈ s.convs.filter (fun r => !(r.conversation_id == tid)),
      r.id < s.nextId := by
    intro r hr
    exact h5 r (List.mem_filter.mp hr).1
  have hfst := foldl_threadTopicsUpdate_fst
    (((s.convs.filter (fun r => r.conversation_id == tid)).map Row.topic).dedup)
    (s.convs.filter (fun r => r.conversation_id == tid)) s.topics
  refine ⟨by rw [show (delete_conversation_thread s tid).1.topics
      = (((s.convs.filter (fun r => r.conversation_id == tid)).map Row.topic).dedup).foldl
        (threadTopicsUpdate (s.convs.filter (fun r => r.conversation_id == tid)))
        s.topics from rfl, hfst]; exact h1,
    keys_ne_of_fst_eq hfst h2, ?_, hid, hlt⟩
  intro name hn
  show (clookup ((((s.convs.filter (fun r => r.conversation_id == tid)).map
        Row.topic).dedup).foldl
      (threadTopicsUpdate (s.convs.filter (fun r => r.conversation_id == tid)))
      s.topics) name).getD 0
    = topicRows (s.convs.filter (fun r => !(r.conversation_id == tid))) name
  have hsplit := topicRows_split s.convs (fun r => r.conversation_id == tid) name
  have hg := h3 name hn
  by_cases hmem : some name
      ∈ ((s.convs.filter (fun r => r.conversation_id == tid)).map Row.topic).dedup
  · have hpos : 0 < topicRows (s.convs.filter (fun r => r.conversation_id == tid)) name :=
      (mem_dedup_topic _ name).mp hmem
    rw [clookup_foldl_tu_mem _ _ name s.topics (List.nodup_dedup _) hmem]
    have hnb : (name == "") = false := beq_eq_false_iff_ne.mpr hn
    have hpos2 : 0 < ((s.convs.filter (fun r => r.conversation_id == tid)).filter
        (fun r => r.topic == some name)).length := hpos
    simp only [threadTopicsUpdate, hnb, Bool.false_eq_true, ite_false, hpos2, ite_true]
    rw [clookup_decN, if_pos rfl]
    have hle : topicRows (s.convs.filter (fun r => r.conversation_id == tid)) name
        ≤ topicRows s.convs name := by
      omega
    cases hcl : clookup s.topics name with
    | none =>
      rw [hcl] at hg
      simp only [Option.getD_none] at hg
      exact absurd hpos (by omega)
    | some v =>
      rw [hcl] at hg
      simp only [Option.getD_some] at hg
      subst hg
      have hle2 : ((s.convs.filter (fun r => r.conversation_id == tid)).filter
          (fun r => r.topic == some name)).length ≤ topicRows s.convs name := hle
      have hbridge : ((s.convs.filter (fun r => r.conversation_id == tid)).filter
          (fun r => r.topic == some name)).length
          = topicRows (s.convs.filter (fun r => r.conversation_id == tid)) name := rfl
      simp only [Option.map_some', Option.getD_some, hle2, ite_true]
      omega
  · rw [clookup_foldl_tu_not_mem _ _ name s.topics hmem]
    have hzero : topicRows (s.convs.filter (fun r => r.conversation_id == tid)) name
        = 0 := by
      by_contra hne
      exact hmem ((mem_dedup_topic _ name).mpr (Nat.pos_of_ne_zero hne))
    omega

theorem inv_updateTopic (s : DBState) (rid : Nat) (nt : Option String)
    (h : TopicsInv s) : TopicsInv (update_conversation_topic s rid nt).1 := by
  obtain ⟨h1, h2, h3, h4, h5⟩ := h
  cases hf : findRow s.convs rid with
  | none =>
    simp only [update_conversation_topic, hf]
    exact ⟨h1, h2, h3, h4, h5⟩
  | some r =>
    have hr : r ∈ s.convs := List.mem_of_find?_eq_some hf
    have hid : ((s.convs.map (setTopic rid nt)).map Row.id).Nodup := by
      rw [List.map_map]
      have hco : (Row.id ∘ setTopic rid nt) = Row.id := by
        funext x
        unfold setTopic
        simp only [Function.comp_apply]
        split <;> rfl
      rw [hco]
      exact h4
    have hlt : ∀ x ∈ s.convs.map (setTopic rid nt), x.id < s.nextId := by
      intro x hx
      rcases List.mem_map.mp hx with ⟨y, hy, rfl⟩
      have h6 := h5 y hy
      unfold setTopic
      by_cases hyy : y.id == rid
      · simpa [hyy] using h6
      · simpa [hyy] using h6
    have ht1fst : ((match r.topic with
        | some o => if o == "" then s.topics else dec1 s.topics o
        | none => s.topics) : List (String × Nat)).map Prod.fst
        = s.topics.map Prod.fst := by
      cases r.topic with
      | none => rfl
      | some o => by_cases ho : o == "" <;> simp [ho, dec1_fst]
    have ht1 : ∀ name : String, name ≠ "" →
        (clookup ((match r.topic with
          | some o => if o == "" then s.topics else dec1 s.topics o
          | none => s.topics) : List (String × Nat)) name).getD 0
        = topicRows s.convs name - (if r.topic == some name then 1 else 0) := by
      intro name hn
      cases hto : r.topic with
      | none => simp [h3 name hn]
      | some o =>
        by_cases ho : o == ""
        · have ho2 : o = "" := by simpa using ho
          have hd : (some o == some name) = false := by
            simp [ho2]
            exact fun hh => hn hh.symm
          simp [ho, hd, h3 name hn]
        · simp only [ho, Bool.false_eq_true, ite_false]
          rw [clookup_dec1]
          by_cases hno : name = o
          · subst hno
            have hpos : 0 < topicRows s.convs name :=
              topicRows_pos_of_mem s.convs r name hr (by simp [hto])
            have hg := h3 name hn
            rw [if_pos rfl]
            cases hcl : clookup s.topics name with
            | none =>
              rw [hcl] at hg
              simp only [Option.getD_none] at hg
              omega
            | some v =>
              rw [hcl] at hg
              simp only [Option.getD_some] at hg
              subst hg
              simp [hpos]
          · rw [if_neg hno]
            have hd : (some o == some name) = false := by
              simp
              exact fun hh => hno hh.symm
            simp [hd, h3 name hn]
    cases hnt : nt with
    | none =>
      subst hnt
      simp only [update_conversation_topic, hf]
      refine ⟨?_, keys_ne_of_fst_eq ht1fst h2, ?_, hid, hlt⟩
      · show (((match r.topic with
          | some o => if o == "" then s.topics else dec1 s.topics o
          | none => s.topics) : List (String × Nat)).map Prod.fst).Nodup
        rw [ht1fst]
        exact h1
      · intro name hn
        show (clookup ((match r.topic with
            | some o => if o == "" then s.topics else dec1 s.topics o
            | none => s.topics) : List (String × Nat)) name).getD 0
          = topicRows (s.convs.map (setTopic rid none)) name
        rw [ht1 name hn, topicRows_setTopic s.convs rid none r name h4 hf]
        simp
    | some n2 =>
      subst hnt
      by_cases hn2 : n2 == ""
      · simp only [update_conversation_topic, hf, hn2, ite_true]
        refine ⟨?_, keys_ne_of_fst_eq ht1fst h2, ?_, hid, hlt⟩
        · show (((match r.topic with
            | some o => if o == "" then s.topics else dec1 s.topics o
            | none => s.topics) : List (String × Nat)).map Prod.fst).Nodup
          rw [ht1fst]
          exact h1
        · intro name hn
          show (clookup ((match r.topic with
              | some o => if o == "" then s.topics else dec1 s.topics o
              | none => s.topics) : List (String × Nat)) name).getD 0
            = topicRows (s.convs.map (setTopic rid (some n2))) name
          rw [ht1 name hn, topicRows_setTopic s.convs rid (some n2) r name h4 hf]
          have hd : (some n2 == some name) = false := by
            simp [show n2 = "" from by simpa using hn2]
            exact fun hh => hn hh.symm
          rw [hd]
          simp
      · simp only [update_conversation_topic, hf, hn2, Bool.false_eq_true, ite_false]
        refine ⟨?_, ?_, ?_, hid, hlt⟩
        · show ((counterBump ((match r.topic with
            | some o => if o == "" then s.topics else dec1 s.topics o
            | none => s.topics) : List (String × Nat)) n2).map Prod.fst).Nodup
          refine counterBump_fst_nodup _ n2 ?_
          rw [ht1fst]
          exact h1
        · intro p hp
          have hmem : p.1 ∈ (counterBump ((match r.topic with
              | some o => if o == "" then s.topics else dec1 s.topics o
              | none => s.topics) : List (String × Nat)) n2).map Prod.fst :=
            List.mem_map_of_mem Prod.fst hp
          rcases (counterBump_fst_mem _ n2 p.1).mp hmem with hmm | rfl
          · rw [ht1fst] at hmm
            rcases List.mem_map.mp hmm with ⟨q, hq, hq2⟩
            exact hq2 ▸ h2 q hq
          · simpa using hn2
        · intro name hn
          show (clookup (counterBump ((match r.topic with
              | some o => if o == "" then s.topics else dec1 s.topics o
              | none => s.topics) : List (String × Nat)) n2) name).getD 0
            = topicRows (s.convs.map (setTopic rid (some n2))) name
          rw [clookup_counterBump,
            topicRows_setTopic s.convs rid (some n2) r name h4 hf]
          by_cases hno : name = n2
          · subst hno
            rw [if_pos rfl]
            simp only [Option.getD_some]
            rw [ht1 name hn]
            simp
          · rw [if_neg hno]
            have hd : (some n2 == some name) = false := by
              simp
              exact fun hh => hno hh.symm
            rw [ht1 name hn, hd]
            simp

theorem inv_initial : TopicsInv initialState :=
  ⟨by simp [initialState], by simp [initialState],
   fun name _ => rfl, by simp [initialState], by simp [initialState]⟩

theorem inv_applyOp (s : DBState) (op : DBOp) (h : TopicsInv s) :
    TopicsInv (applyOp s op) := by
  cases op with
  | save a b c d su tp ci ts dt => exact inv_save s a b c d su tp ci ts dt h
  | deleteConv rid => exact inv_delete s rid h
  | deleteThread tid => exact inv_deleteThread s tid h
  | updateTopic rid ntp => exact inv_updateTopic s rid ntp h

theorem inv_runOps (ops : List DBOp) : TopicsInv (runOps ops) := by
  have haux : ∀ (l : List DBOp) (s : DBState), TopicsInv s →
      TopicsInv (l.foldl applyOp s) := by
    intro l
    induction l with
    | nil => exact fun s hs => hs
    | cons op rest ih =>
      intro s hs
      exact ih (applyOp s op) (inv_applyOp s op hs)
  exact haux ops initialState inv_initial

/-- C8: topic-counter consistency.  Starting from an empty database, after
every sequence of `save_conversation`, `delete_conversation`,
`delete_conversation_thread` and `update_conversation_topic` operations,
every count stored in the `topics` table for a non-empty topic name equals
the number of rows of the `conversations` table carrying that topic. -/
theorem C8_topic_counter_consistency (ops : List DBOp) (name : String) (c : Nat)
    (hmem : (name, c) ∈ (runOps ops).topics) (hname : name ≠ "") :
    c = topicRows (runOps ops).convs name := by
  obtain ⟨h1, h2, h3, h4, h5⟩ := inv_runOps ops
  have hl := clookup_eq_of_mem h1 hmem
  have hg := h3 name hname
  rw [hl] at hg
  simpa using hg

/-- C8 witness: after saving three conversations (topics `"benefits"`,
`"benefits"`, `"leave"`) and deleting the second, the stored count 1 for
`"benefits"` equals the number of remaining conversation rows with that
topic. -/
theorem C8_topic_counter_consistency_witness :
    (1 : Nat) = topicRows (runOps c8Ops).convs "benefits" :=
  C8_topic_counter_consistency c8Ops "benefits" 1 (by decide) (by decide)

/-- C1 amended: `get_top_topics` reads the stored per-topic counters of
the `topics` table rather than grouping the `conversations` table; on
every reachable database state every pair it reports carries the exact
count obtained by grouping and counting the `topic` column of the
`conversations` table directly, and every topic still carried by at least
one conversation row is reported (with a large enough limit) — but, as
the counterexample shows, it can additionally report zero-count topics
that no conversation row carries any more. -/
theorem C1_top_topics_reachable_agreement (ops : List DBOp) (limit : Nat) :
    (∀ p ∈ get_top_topics (runOps ops) limit,
      p.2 = topicRows (runOps ops).convs p.1) ∧
    (∀ name : String, name ≠ "" → 0 < topicRows (runOps ops).convs name →
      (name, topicRows (runOps ops).convs name)
        ∈ get_top_topics (runOps ops) ((runOps ops).topics.length)) := by
  obtain ⟨h1, h2, h3, h4, h5⟩ := inv_runOps ops
  constructor
  · rintro ⟨pn, pc⟩ hp
    have hp2 : (pn, pc) ∈ (runOps ops).topics := by
      unfold get_top_topics at hp
      exact (sortLe_perm _ _).mem_iff.mp (List.mem_of_mem_take hp)
    have hname : pn ≠ "" := h2 (pn, pc) hp2
    have hl := clookup_eq_of_mem h1 hp2
    have hg := h3 pn hname
    rw [hl] at hg
    simpa using hg
  · intro name hn hpos
    have hg := h3 name hn
    cases hcl : clookup (runOps ops).topics name with
    | none =>
      rw [hcl] at hg
      simp only [Option.getD_none] at hg
      omega
    | some v =>
      rw [hcl] at hg
      simp only [Option.getD_some] at hg
      subst hg
      have hmem := clookup_some_mem hcl
      unfold get_top_topics
      rw [List.take_of_length_le (le_of_eq (sortLe_length _ _))]
      exact (sortLe_perm _ _).mem_iff.mpr hmem

/-- C1 amended witness: on the reachable state of `c8Ops`, the topic
`"benefits"` still has a conversation row and is reported by
`get_top_topics` with exactly its grouped count. -/
theorem C1_top_topics_reachable_agreement_witness :
    ("benefits", topicRows (runOps c8Ops).convs "benefits")
      ∈ get_top_topics (runOps c8Ops) ((runOps c8Ops).topics.length) :=
  (C1_top_topics_reachable_agreement c8Ops 10).2 "benefits" (by decide) (by decide)

end HRBot
